import Mathlib

/-!
Verification development for the fe-workflow editor extension.

This file gives a shallow embedding of the task-categorization logic
(`src/views/jiraTasksProvider.ts`), the assignment-polling watcher
(`JiraService.startNotificationPolling` / `detectNewTasks` /
`stopNotificationPolling`), and the checklist editor operations
(`ChecklistEditorProvider.toggleCheckbox` / `calculateProgress`),
together with proofs of the specified properties.

Modelling conventions:
- TypeScript strings are Lean `String`; operations that matter
  (`toLowerCase`, `includes`, `localeCompare`) are modelled over the
  underlying character list (`localeCompare` is modelled as code-point
  lexicographic comparison).
- `undefined`-able fields are `Option`; JavaScript truthiness of an
  optional string (`undefined` and `""` are falsy) is `truthyStr`.
- `new Date(s).getTime()` is modelled for ISO `YYYY-MM-DD` strings as
  milliseconds since the Unix epoch (`dateTime`); an unparseable string
  yields `none`, mirroring `NaN`.  A comparator difference involving
  `NaN` is `+0` per the ECMAScript sort specification, which the
  comparator models explicitly.
- JavaScript numbers are modelled as exact arithmetic (`Nat`/`Int`/`ℚ`).
- `Array.prototype.sort` (stable) is modelled by a stable insertion
  sort `sortS` over the comparator-induced boolean order.
- JS `Map` (insertion-ordered) is modelled as an association list to
  which new keys are appended at the end.
-/

/-! ### String utilities modelling JavaScript string operations -/

/-- `isPrefixL n s` is true when the character list `n` is a prefix of `s`. -/
def isPrefixL : List Char → List Char → Bool
  | [], _ => true
  | _ :: _, [] => false
  | a :: as, b :: bs => a == b && isPrefixL as bs

/-- `hasSubL n s` is true when `n` occurs as a contiguous run inside `s`.
Models `String.prototype.includes`. -/
def hasSubL (needle : List Char) : List Char → Bool
  | [] => needle.isEmpty
  | c :: rest => isPrefixL needle (c :: rest) || hasSubL needle rest

/-- Models `status.toLowerCase().includes(needle)` for an (already
lowercase) needle; lowercasing is per-character. -/
def statusContains (status : String) (needle : String) : Bool :=
  hasSubL needle.data (status.data.map Char.toLower)

/-- Three-way code-point comparison of character lists: `-1`, `0` or `1`.
Models `String.prototype.localeCompare` for the orderings this code
relies on (plain lexicographic comparison). -/
def cmpCharList : List Char → List Char → Int
  | [], [] => 0
  | [], _ :: _ => -1
  | _ :: _, [] => 1
  | a :: as, b :: bs =>
    if a.toNat < b.toNat then -1
    else if b.toNat < a.toNat then 1
    else cmpCharList as bs

/-- `a.localeCompare(b)` as a signed integer. -/
def strCmpInt (a b : String) : Int :=
  cmpCharList a.data b.data

/-- JavaScript truthiness of an optional string: `undefined` and the
empty string are falsy. -/
def truthyStr : Option String → Bool
  | none => false
  | some s => !s.data.isEmpty

/-! ### ISO date parsing, modelling `new Date(s).getTime()` -/

/-- Is the character list all ASCII digits (and nonempty)? -/
def allDigits : List Char → Bool
  | [] => false
  | [c] => c.isDigit
  | c :: rest => c.isDigit && allDigits rest

/-- Parse a nonempty decimal digit list into a `Nat`. -/
def digitsToNat (cs : List Char) : Nat :=
  cs.foldl (fun acc c => acc * 10 + (c.toNat - 48)) 0

/-- Split a character list at every occurrence of `sep`. -/
def splitOnChar (sep : Char) : List Char → List (List Char)
  | [] => [[]]
  | c :: cs =>
    let r := splitOnChar sep cs
    if c == sep then [] :: r
    else
      match r with
      | h :: t => (c :: h) :: t
      | [] => [[c]]

/-- Is `y` a Gregorian leap year? -/
def isLeapYear (y : Int) : Bool :=
  y % 4 == 0 && (y % 100 != 0 || y % 400 == 0)

/-- Number of days in month `m` of year `y` (months 1..12). -/
def daysInMonth (y : Int) (m : Nat) : Nat :=
  match m with
  | 1 => 31 | 2 => if isLeapYear y then 29 else 28 | 3 => 31
  | 4 => 30 | 5 => 31 | 6 => 30 | 7 => 31 | 8 => 31
  | 9 => 30 | 10 => 31 | 11 => 30 | 12 => 31
  | _ => 0

/-- Days from the Unix epoch (1970-01-01) to civil date `(y, m, d)`,
by the standard civil-calendar algorithm. -/
def daysFromCivil (y : Int) (m : Nat) (d : Nat) : Int :=
  let y' : Int := if m ≤ 2 then y - 1 else y
  let era : Int := Int.fdiv y' 400
  let yoe : Int := y' - era * 400
  let mp : Int := (Int.ofNat m + 9) % 12
  let doy : Int := Int.fdiv (153 * mp + 2) 5 + Int.ofNat d - 1
  let doe : Int := yoe * 365 + Int.fdiv yoe 4 - Int.fdiv yoe 100 + doy
  era * 146097 + doe - 719468

/-- Parse an ISO `YYYY-MM-DD` string into `(year, month, day)`;
`none` when malformed (modelling an invalid `Date`). -/
def parseIsoDate (s : String) : Option (Int × Nat × Nat) :=
  match splitOnChar (Char.ofNat 45) s.data with
  | [ycs, mcs, dcs] =>
    if ycs.length == 4 && mcs.length == 2 && dcs.length == 2
        && allDigits ycs && allDigits mcs && allDigits dcs then
      let y : Int := Int.ofNat (digitsToNat ycs)
      let m := digitsToNat mcs
      let d := digitsToNat dcs
      if 1 ≤ m && m ≤ 12 && 1 ≤ d && d ≤ daysInMonth y m then
        some (y, m, d)
      else none
    else none
  | _ => none

/-- `new Date(s).getTime()` for an ISO date-only string, in milliseconds
since the epoch; `none` models `NaN` (invalid date). -/
def dateTime (s : String) : Option Int :=
  (parseIsoDate s).map (fun x => daysFromCivil x.1 x.2.1 x.2.2 * 86400000)

/-! ### Data model (`src/models/jiraTask.ts`) -/

/-- A fix version association of a task (`FixVersion`). -/
structure FixVersion where
  id : String := ""
  name : String
  description : Option String := none
  released : Bool
  archived : Bool := false
  releaseDate : Option String := none
deriving DecidableEq, Repr

/-- A task fetched from the tracker (`JiraTask`); fields not consumed by
the categorizer or the watcher are kept as plain strings. -/
structure JiraTask where
  id : String
  key : String := ""
  summary : String := ""
  description : String := ""
  status : String := ""
  assignee : String := ""
  type : String := ""
  priority : String := ""
  url : String := ""
  fixVersions : Option (List FixVersion) := none
  created : Option String := none
  updated : Option String := none
deriving DecidableEq, Repr

/-! ### Categorizer (`src/views/jiraTasksProvider.ts`) -/

/-- The `VersionCategory` enum. -/
inductive VersionCategory where
  | Unreleased
  | Released
  | NoVersion
  | Done
  | Discarded
deriving DecidableEq, Repr

/-- The string value of each `VersionCategory` enum member. -/
def catLabel : VersionCategory → String
  | .Unreleased => "Unreleased"
  | .Released => "Released"
  | .NoVersion => "No Version"
  | .Done => "Done"
  | .Discarded => "Discarded"

/-- The `MainGroupCategory` enum. -/
inductive MainGroupCategory where
  | UnreleasedVersions
  | ReleasedVersions
  | DoneAndDiscarded
deriving DecidableEq, Repr

/-- The lowercase "done" synonym substrings tested by `categorizeTask`. -/
def doneNeedles : List String :=
  ["done", "closed", "resolved", "complete", "finished"]

/-- The lowercase "discarded" synonym substrings tested by
`categorizeTask` (the second entry is `won't do`, written here with an
explicit apostrophe character). -/
def discardNeedles : List String :=
  ["discard", "won" ++ String.singleton (Char.ofNat 39) ++ "t do", "wont do",
   "cancelled", "canceled", "invalid", "obsolete", "reject"]

/-- Does the lowercased status contain a "done" synonym? -/
def statusIsDone (status : String) : Bool :=
  doneNeedles.any (fun n => statusContains status n)

/-- Does the lowercased status contain a "discarded" synonym? -/
def statusIsDiscarded (status : String) : Bool :=
  discardNeedles.any (fun n => statusContains status n)

/-- The record returned by `categorizeTask`. -/
structure CatResult where
  category : VersionCategory
  versionName : Option String := none
  releaseDate : Option String := none
deriving DecidableEq, Repr

/-- `JiraTasksProvider.categorizeTask`: status synonyms first (Done, then
Discarded), then No-Version when there are no fix versions, else the
first fix version's `released` flag decides Released/Unreleased,
carrying that version's name and release date.  (The source's
`typeof version === 'object'` guards are vacuous in the typed model.) -/
def categorizeTask (task : JiraTask) : CatResult :=
  if statusIsDone task.status then ⟨.Done, none, none⟩
  else if statusIsDiscarded task.status then ⟨.Discarded, none, none⟩
  else
    match task.fixVersions with
    | none => ⟨.NoVersion, none, none⟩
    | some [] => ⟨.NoVersion, none, none⟩
    | some (v :: _) =>
      if v.released then ⟨.Released, some v.name, v.releaseDate⟩
      else ⟨.Unreleased, some v.name, v.releaseDate⟩

/-- One value of the `tasksByVersion` map in `getChildren`: the category
data of the group plus its task list (in push order). -/
structure VGroup where
  category : VersionCategory
  versionName : Option String := none
  releaseDate : Option String := none
  tasks : List JiraTask := []
deriving DecidableEq, Repr

/-- The map key `versionName ? `${category}-${versionName}` : category`
(an empty version name is falsy in JavaScript). -/
def versionKey (cat : VersionCategory) (vn : Option String) : String :=
  match vn with
  | some n => if n.data.isEmpty then catLabel cat else catLabel cat ++ "-" ++ n
  | none => catLabel cat

/-- Insert task `t` (categorized as `r`) into the insertion-ordered
association list modelling the `tasksByVersion` map: push onto the
existing group with key `k`, or append a fresh group at the end. -/
def addToGroups (k : String) (r : CatResult) (t : JiraTask) :
    List (String × VGroup) → List (String × VGroup)
  | [] => [(k, ⟨r.category, r.versionName, r.releaseDate, [t]⟩)]
  | (k', g) :: rest =>
    if k' == k then (k', { g with tasks := g.tasks ++ [t] }) :: rest
    else (k', g) :: addToGroups k r t rest

/-- The `tasks.forEach` loop of `getChildren` that fills `tasksByVersion`. -/
def categorizeAll (tasks : List JiraTask) : List (String × VGroup) :=
  tasks.foldl
    (fun m t =>
      let r := categorizeTask t
      addToGroups (versionKey r.category r.versionName) r t m)
    []

/-- `Array.from(tasksByVersion.values())` in insertion order. -/
def groupsOf (tasks : List JiraTask) : List VGroup :=
  (categorizeAll tasks).map Prod.snd

/-- Truthiness of a group's release date (`group.releaseDate &&`). -/
def vgHasDate (g : VGroup) : Bool :=
  truthyStr g.releaseDate

/-- The parsed timestamp of a group's (truthy) release date; `none` when
the date is absent, empty or unparseable. -/
def vgTime (g : VGroup) : Option Int :=
  match g.releaseDate with
  | some d => if d.data.isEmpty then none else dateTime d
  | none => none

/-- The unreleased-versions sort comparator of `getChildren`: ascending
by release date, a dated group before an undated one, otherwise
`localeCompare` on the version names.  An unparseable date makes the
date difference `NaN`, which the ECMAScript sort treats as `+0`. -/
def unreleasedCmp (a b : VGroup) : Int :=
  if vgHasDate a && vgHasDate b then
    match vgTime a, vgTime b with
    | some ta, some tb => ta - tb
    | _, _ => 0
  else if vgHasDate a then -1
  else if vgHasDate b then 1
  else strCmpInt (a.versionName.getD "") (b.versionName.getD "")

/-- The released-versions sort comparator of `getChildren`: descending
by release date, a dated group before an undated one, otherwise
`localeCompare` on the version names (ascending, same as unreleased). -/
def releasedCmp (a b : VGroup) : Int :=
  if vgHasDate a && vgHasDate b then
    match vgTime a, vgTime b with
    | some ta, some tb => tb - ta
    | _, _ => 0
  else if vgHasDate a then -1
  else if vgHasDate b then 1
  else strCmpInt (a.versionName.getD "") (b.versionName.getD "")

/-- Boolean order induced by a JS comparator: `a` may stay before `b`
exactly when the comparator is nonpositive. -/
def cmpLe (cmp : VGroup → VGroup → Int) (a b : VGroup) : Bool :=
  decide (cmp a b ≤ 0)

/-- Stable insertion of `x` into `acc`: `x` goes after every element
that compares less-or-equal to it. -/
def insertS (le : α → α → Bool) (x : α) : List α → List α
  | [] => [x]
  | y :: ys => if le y x then y :: insertS le x ys else x :: y :: ys

/-- Stable sort over a comparator-induced order, modelling the (stable)
`Array.prototype.sort`. -/
def sortS (le : α → α → Bool) (l : List α) : List α :=
  l.foldl (fun acc x => insertS le x acc) []

/-- A `VersionCategoryItem` node of the tree (UI-only fields such as
icons, labels and collapsible state are omitted). -/
structure VCItem where
  category : VersionCategory
  tasks : List JiraTask
  version : Option String := none
  releaseDate : Option String := none
deriving DecidableEq, Repr

/-- Build a `VersionCategoryItem` from a version group, as in the
`unreleasedVersions.forEach` / `releasedVersions.forEach` loops. -/
def toItem (g : VGroup) : VCItem :=
  ⟨g.category, g.tasks, g.versionName, g.releaseDate⟩

/-- A `MainGroupItem` node of the tree. -/
structure MainGroup where
  category : MainGroupCategory
  items : List VCItem
deriving DecidableEq, Repr

/-- The `unreleasedCategoryItems` array of `getChildren`. -/
def unreleasedItems (tasks : List JiraTask) : List VCItem :=
  (sortS (cmpLe unreleasedCmp)
    ((groupsOf tasks).filter (fun g => decide (g.category = .Unreleased)))).map toItem

/-- The sorted released version items (before the No-Version append). -/
def releasedItemsSorted (tasks : List JiraTask) : List VCItem :=
  (sortS (cmpLe releasedCmp)
    ((groupsOf tasks).filter (fun g => decide (g.category = .Released)))).map toItem

/-- The No-Version item appended to `releasedCategoryItems` when a
non-empty No-Version group exists. -/
def noVersionItems (tasks : List JiraTask) : List VCItem :=
  match (groupsOf tasks).find? (fun g => decide (g.category = .NoVersion)) with
  | some g => if 0 < g.tasks.length then [⟨.NoVersion, g.tasks, none, none⟩] else []
  | none => []

/-- The full `releasedCategoryItems` array. -/
def releasedItemsAll (tasks : List JiraTask) : List VCItem :=
  releasedItemsSorted tasks ++ noVersionItems tasks

/-- The Done item of `doneDiscardedCategoryItems`, when present. -/
def doneItems (tasks : List JiraTask) : List VCItem :=
  match (groupsOf tasks).find? (fun g => decide (g.category = .Done)) with
  | some g => if 0 < g.tasks.length then [⟨.Done, g.tasks, none, none⟩] else []
  | none => []

/-- The Discarded item of `doneDiscardedCategoryItems`, when present. -/
def discardedItems (tasks : List JiraTask) : List VCItem :=
  match (groupsOf tasks).find? (fun g => decide (g.category = .Discarded)) with
  | some g => if 0 < g.tasks.length then [⟨.Discarded, g.tasks, none, none⟩] else []
  | none => []

/-- The `doneDiscardedCategoryItems` array (Done pushed before
Discarded). -/
def ddItems (tasks : List JiraTask) : List VCItem :=
  doneItems tasks ++ discardedItems tasks

/-- The root level of `JiraTasksProvider.getChildren`: categorize the
fetched tasks and assemble the main groups in the fixed order
Unreleased Versions, Released Versions, Done-and-Discarded, omitting
any main group with no items.  An empty fetch returns the empty list. -/
def getChildrenRoot (tasks : List JiraTask) : List MainGroup :=
  if tasks.length == 0 then []
  else
    (if 0 < (unreleasedItems tasks).length then
      [⟨.UnreleasedVersions, unreleasedItems tasks⟩] else [])
    ++ (if 0 < (releasedItemsAll tasks).length then
      [⟨.ReleasedVersions, releasedItemsAll tasks⟩] else [])
    ++ (if 0 < (ddItems tasks).length then
      [⟨.DoneAndDiscarded, ddItems tasks⟩] else [])

/-- All tasks contained in a tree, grouped output flattened back to a
single list (each `VersionGroup`'s tasks in display order). -/
def allTasksOf (out : List MainGroup) : List JiraTask :=
  (out.map (fun mg => (mg.items.map (fun it => it.tasks)).flatten)).flatten

/-! ### Assignment watcher (`JiraService`) -/

/-- `Set.add` on the set of known task ids (membership-based; the set is
modelled as a duplicate-free-by-construction list). -/
def addKnownId (known : List String) (i : String) : List String :=
  if known.contains i then known else known ++ [i]

/-- `JiraService.updateKnownTasks`: fold every fetched task's id into
the known set. -/
def updateKnownTasks (known : List String) : List JiraTask → List String
  | [] => known
  | t :: ts => updateKnownTasks (addKnownId known t.id) ts

/-- `JiraService.detectNewTasks`: walk the fetch response in order,
collecting tasks whose id is not yet known and adding their ids to the
known set as they are seen.  Returns the new tasks and the updated set. -/
def detectNewTasks (known : List String) : List JiraTask → List JiraTask × List String
  | [] => ([], known)
  | t :: ts =>
    if known.contains t.id then detectNewTasks known ts
    else
      let r := detectNewTasks (addKnownId known t.id) ts
      (t :: r.1, r.2)

/-- One interval tick of `startNotificationPolling`.  The input is the
outcome of the guarded fetch: `none` when credentials are missing or
`getMyTasks` threw (the `catch` swallows the error and the tick changes
nothing), `some tasks` on success.  Returns the updated known set and
the `onNewTasks` callback payload (`none` when the callback is not
invoked; it is invoked only with a non-empty list). -/
def pollTick (known : List String) : Option (List JiraTask) → List String × Option (List JiraTask)
  | none => (known, none)
  | some tasks =>
    let r := detectNewTasks known tasks
    (r.2, if 0 < r.1.length then some r.1 else none)

/-- A run of the polling interval: thread the known set through a
sequence of tick fetch outcomes, collecting every callback payload. -/
def pollRun (known : List String) : List (Option (List JiraTask)) → List String × List (List JiraTask)
  | [] => (known, [])
  | f :: fs =>
    let r := pollTick known f
    let rest := pollRun r.1 fs
    (rest.1, match r.2 with | some e => e :: rest.2 | none => rest.2)

/-- `startNotificationPolling` followed by a sequence of interval ticks:
the initial fetch is folded into the known set via `updateKnownTasks`
with no callback (on initial-fetch failure the set stays empty), then
the ticks run.  Returns the final known set and the list of callback
invocations. -/
def watcherRun (initialFetch : Option (List JiraTask))
    (ticks : List (Option (List JiraTask))) : List String × List (List JiraTask) :=
  let seeded := match initialFetch with
    | some ts => updateKnownTasks [] ts
    | none => []
  pollRun seeded ticks

/-- Modelled from the spec (§4.2 detection rule), for comparison with
the source's `detectNewTasks` path: on each successful tick the callback
payload is the fetch response filtered to ids absent from the known set
immediately before the tick, the callback fires only on a non-empty
payload, and all fetched ids are then added to the set. -/
def specTick (known : List String) : Option (List JiraTask) → List String × Option (List JiraTask)
  | none => (known, none)
  | some tasks =>
    let fresh := tasks.filter (fun t => !(known.contains t.id))
    (updateKnownTasks known tasks, if fresh.isEmpty then none else some fresh)

/-- The spec-level watcher run built from `specTick`. -/
def specRun (known : List String) : List (Option (List JiraTask)) → List String × List (List JiraTask)
  | [] => (known, [])
  | f :: fs =>
    let r := specTick known f
    let rest := specRun r.1 fs
    (rest.1, match r.2 with | some e => e :: rest.2 | none => rest.2)

/-- The spec-level full run (seed without callback, then ticks). -/
def specWatcherRun (initialFetch : Option (List JiraTask))
    (ticks : List (Option (List JiraTask))) : List String × List (List JiraTask) :=
  let seeded := match initialFetch with
    | some ts => updateKnownTasks [] ts
    | none => []
  specRun seeded ticks

/-- The mutable state of `JiraService` relevant to polling: the known
task ids and whether `pollingInterval` is set (`stop` clears it). -/
structure PollingState where
  known : List String
  pollingActive : Bool
deriving DecidableEq, Repr

/-- `JiraService.stopNotificationPolling`: clears the interval, so no
further ticks start; the known set is untouched. -/
def stopNotificationPolling (s : PollingState) : PollingState :=
  { s with pollingActive := false }

/-- The completion handler of an interval tick (the code after `await
this.getMyTasks()` resolves): it applies `detectNewTasks` and invokes
the callback on a non-empty result.  The source contains no
"still running" re-check, so this handler does not consult
`pollingActive` — an in-flight fetch completing after `stop()` still
applies its effects. -/
def tickCompletion (s : PollingState) (fetch : Option (List JiraTask)) :
    PollingState × Option (List JiraTask) :=
  let r := pollTick s.known fetch
  ({ s with known := r.1 }, r.2)

/-! ### Checklist editor (`ChecklistEditorProvider`, `workflowChecklist.ts`) -/

/-- A checklist item (`ChecklistItem`).  Recursive because of the
optional `subItems` array (absent is modelled as `[]`); the
`[key: string]: any` index signatures of the source are not modelled. -/
inductive ChecklistItem where
  | mk (id : String) (title : String) (description : Option String)
       (isChecked : Bool) (subItems : List ChecklistItem)

/-- The item's `id` field. -/
def ChecklistItem.id : ChecklistItem → String
  | .mk i _ _ _ _ => i

/-- The item's `title` field. -/
def ChecklistItem.title : ChecklistItem → String
  | .mk _ t _ _ _ => t

/-- The item's `description` field. -/
def ChecklistItem.description : ChecklistItem → Option String
  | .mk _ _ d _ _ => d

/-- The item's `isChecked` field. -/
def ChecklistItem.isChecked : ChecklistItem → Bool
  | .mk _ _ _ c _ => c

/-- The item's `subItems` field. -/
def ChecklistItem.subItems : ChecklistItem → List ChecklistItem
  | .mk _ _ _ _ s => s

/-- `item.isChecked = !item.isChecked` — every other field unchanged. -/
def toggleItem : ChecklistItem → ChecklistItem
  | .mk i t d c s => .mk i t d (!c) s

/-- Section metadata (`SectionMetadata`; only the declared `expanded`
field is modelled). -/
structure SectionMetadata where
  expanded : Option Bool := none

/-- A checklist section (`ChecklistSection`). -/
structure ChecklistSection where
  id : String
  title : String := ""
  items : List ChecklistItem
  metadata : Option SectionMetadata := none

/-- A whole checklist document (`WorkflowChecklist`). -/
structure WorkflowChecklist where
  jiraTaskKey : String := ""
  jiraTaskSummary : String := ""
  lastUpdated : String := ""
  sections : List ChecklistSection

/-- Apply `f` to the first element satisfying `p`, leaving everything
else in place — the effect of `array.find(...)` followed by an in-place
mutation of the found element. -/
def modifyFirst (p : α → Bool) (f : α → α) : List α → List α
  | [] => []
  | x :: xs => if p x then f x :: xs else x :: modifyFirst p f xs

/-- `ChecklistEditorProvider.toggleCheckbox`: find the section with
`sectionId`, inside it find the item with `itemId`, and flip that
item's `isChecked`; when either lookup fails nothing changes. -/
def toggleCheckbox (sectionId itemId : String) (c : WorkflowChecklist) : WorkflowChecklist :=
  { c with sections :=
      (modifyFirst (fun s => s.id == sectionId)
        (fun s => { s with items := modifyFirst (fun i => i.id == itemId) toggleItem s.items })
        c.sections) }

/-- The record returned by `calculateProgress`. -/
structure Progress where
  completed : Nat
  total : Nat
  percentage : Int
deriving DecidableEq, Repr

/-- `Math.round`: round half toward positive infinity. -/
def mathRound (q : ℚ) : Int :=
  Int.floor (q + 1/2)

/-- `ChecklistEditorProvider.calculateProgress`: count all items and the
checked ones across every section (sub-items are not visited), and
compute the rounded percentage, `0` when there are no items. -/
def calculateProgress (c : WorkflowChecklist) : Progress :=
  let counts :=
    c.sections.foldl
      (fun acc s =>
        s.items.foldl
          (fun acc2 i => (acc2.1 + (if i.isChecked then 1 else 0), acc2.2 + 1))
          acc)
      ((0 : Nat), (0 : Nat))
  let percentage : Int :=
    if 0 < counts.2 then mathRound ((counts.1 : ℚ) / (counts.2 : ℚ) * 100) else 0
  ⟨counts.1, counts.2, percentage⟩

/-! ### Concrete example data for witnesses and counterexamples -/

/-- Example task A (watcher examples). -/
def exTaskA : JiraTask := { id := "A", key := "FE-1", status := "In Progress" }

/-- Example task B (watcher examples). -/
def exTaskB : JiraTask := { id := "B", key := "FE-2", status := "To Do" }

/-- Example task C (watcher examples). -/
def exTaskC : JiraTask := { id := "C", key := "FE-3", status := "To Do" }

/-- A released fix version named "A" with no release date. -/
def exVerRelA : FixVersion := { id := "10", name := "A", released := true }

/-- A released fix version named "B" with no release date. -/
def exVerRelB : FixVersion := { id := "11", name := "B", released := true }

/-- A task on released version "B" (no date), non-terminal status. -/
def exTaskRelB : JiraTask := { id := "rb", key := "FE-4", status := "Open", fixVersions := some [exVerRelB] }

/-- A task on released version "A" (no date), non-terminal status. -/
def exTaskRelA : JiraTask := { id := "ra", key := "FE-5", status := "Open", fixVersions := some [exVerRelA] }

/-- A task on a released version dated 2024-01-01. -/
def exTaskRelJan : JiraTask :=
  { id := "rj", key := "FE-6", status := "Open",
    fixVersions := some [{ id := "12", name := "R1", released := true, releaseDate := some "2024-01-01" }] }

/-- A task on a released version dated 2024-06-01. -/
def exTaskRelJun : JiraTask :=
  { id := "rk", key := "FE-7", status := "Open",
    fixVersions := some [{ id := "13", name := "R2", released := true, releaseDate := some "2024-06-01" }] }

/-- A task on an unreleased version dated 2024-01-01. -/
def exTaskUnrJan : JiraTask :=
  { id := "uj", key := "FE-8", status := "Open",
    fixVersions := some [{ id := "14", name := "U1", released := false, releaseDate := some "2024-01-01" }] }

/-- A task on an unreleased version dated 2024-06-01. -/
def exTaskUnrJun : JiraTask :=
  { id := "uk", key := "FE-9", status := "Open",
    fixVersions := some [{ id := "15", name := "U2", released := false, releaseDate := some "2024-06-01" }] }

/-- A task with no fix versions and a non-terminal status. -/
def exTaskNoVer : JiraTask := { id := "nv", key := "FE-10", status := "Open" }

/-- A task whose status contains "Resolved" although it has a released
fix version. -/
def exTaskResolved : JiraTask :=
  { id := "rs", key := "FE-11", status := "Resolved",
    fixVersions := some [{ id := "16", name := "R9", released := true, releaseDate := some "2024-03-05" }] }

/-- A small example checklist with two sections. -/
def exChecklist : WorkflowChecklist :=
  { jiraTaskKey := "FE-1", jiraTaskSummary := "demo", lastUpdated := "2024-01-01",
    sections :=
      [ { id := "section-1", title := "Analysis",
          items := [ .mk "item-1-1" "Understand" none false [],
                     .mk "item-1-2" "Clarify" none true [] ] },
        { id := "section-2", title := "Estimation",
          items := [ .mk "item-2-1" "Discuss" none false [] ] } ] }

/-- The display data of a map entry (key, category, version name,
release date) — everything except the accumulated task list. -/
def entryData (e : String × VGroup) : String × VersionCategory × Option String × Option String :=
  (e.1, e.2.category, e.2.versionName, e.2.releaseDate)

/-- A well-formed optional release-date string: absent, empty, or a
parseable ISO date.  (The tracker serves release dates in ISO form;
this is the precondition under which "sorted by date" is meaningful.) -/
def goodDateStr : Option String → Bool
  | none => true
  | some d => d.data.isEmpty || (dateTime d).isSome

/-- All of a task's fix versions carry well-formed release dates. -/
def goodTask (t : JiraTask) : Bool :=
  match t.fixVersions with
  | some vs => vs.all (fun v => goodDateStr v.releaseDate)
  | none => true

/-- A version group with a well-formed release date. -/
def goodGroup (g : VGroup) : Bool :=
  goodDateStr g.releaseDate

/-- The parsed timestamp of a tree item's (truthy) release date. -/
def itemTime (it : VCItem) : Option Int :=
  match it.releaseDate with
  | some d => if d.data.isEmpty then none else dateTime d
  | none => none

/-- The ordering the specification asserts for unreleased version
groups: ascending by release date, a dated group before an undated
one, undated ties alphabetically ascending by version name. -/
def unrelOrderB (a b : VCItem) : Bool :=
  match itemTime a, itemTime b with
  | some ta, some tb => decide (ta ≤ tb)
  | some _, none => true
  | none, some _ => false
  | none, none => decide (strCmpInt (a.version.getD "") (b.version.getD "") ≤ 0)

/-- The ordering that actually holds for released version groups:
descending by release date, a dated group before an undated one,
undated ties alphabetically **ascending** by version name (same
direction as the unreleased tie-break). -/
def relOrderB (a b : VCItem) : Bool :=
  match itemTime a, itemTime b with
  | some ta, some tb => decide (tb ≤ ta)
  | some _, none => true
  | none, some _ => false
  | none, none => decide (strCmpInt (a.version.getD "") (b.version.getD "") ≤ 0)

/-- The ordering the claim asserts for released version groups:
descending by release date with undated ties alphabetically
**descending** by version name (the direction the code does not use). -/
def relOrderDescB (a b : VCItem) : Bool :=
  match itemTime a, itemTime b with
  | some ta, some tb => decide (tb ≤ ta)
  | some _, none => true
  | none, some _ => false
  | none, none => decide (strCmpInt (b.version.getD "") (a.version.getD "") ≤ 0)

/-- A fetch outcome with duplicate-free task identifiers (the data
model guarantees ids are unique per task; a failed fetch is vacuously
fine). -/
def nodupIdsOpt : Option (List JiraTask) → Bool
  | none => true
  | some ts => decide (ts.map (fun t => t.id)).Nodup

/-! ### Generic lemmas: `modifyFirst` -/

theorem modifyFirst_eq_of_forall_false {p : α → Bool} {f : α → α} {l : List α}
    (h : ∀ a ∈ l, p a = false) : modifyFirst p f l = l := by
  induction l with
  | nil => rfl
  | cons x xs ih =>
    simp only [modifyFirst, h x (List.mem_cons_self x xs)]
    simp only [Bool.false_eq_true, if_false]
    rw [ih (fun a ha => h a (List.mem_cons_of_mem x ha))]

theorem modifyFirst_eq_of_fix {p : α → Bool} {f : α → α} {l : List α}
    (h : ∀ a ∈ l, f a = a) : modifyFirst p f l = l := by
  induction l with
  | nil => rfl
  | cons x xs ih =>
    simp only [modifyFirst]
    by_cases hp : p x
    · simp [hp, h x (List.mem_cons_self x xs)]
    · simp [hp, ih (fun a ha => h a (List.mem_cons_of_mem x ha))]

theorem modifyFirst_split (p : α → Bool) (f : α → α) (l : List α) :
    ((∀ a ∈ l, p a = false) ∧ modifyFirst p f l = l) ∨
    (∃ l₁ a l₂, l = l₁ ++ a :: l₂ ∧ p a = true ∧ (∀ b ∈ l₁, p b = false) ∧
      modifyFirst p f l = l₁ ++ f a :: l₂) := by
  induction l with
  | nil => exact Or.inl ⟨by simp, rfl⟩
  | cons x xs ih =>
    by_cases hp : p x = true
    · refine Or.inr ⟨[], x, xs, by simp, hp, by simp, ?_⟩
      simp [modifyFirst, hp]
    · have hpf : p x = false := by simpa using hp
      rcases ih with ⟨hall, heq⟩ | ⟨l₁, a, l₂, hsplit, hpa, hpre, heq⟩
      · refine Or.inl ⟨?_, ?_⟩
        · intro a ha
          rcases List.mem_cons.1 ha with rfl | ha
          · exact hpf
          · exact hall a ha
        · simp [modifyFirst, hpf, heq]
      · refine Or.inr ⟨x :: l₁, a, l₂, by simp [hsplit], hpa, ?_, ?_⟩
        · intro b hb
          rcases List.mem_cons.1 hb with rfl | hb
          · exact hpf
          · exact hpre b hb
        · simp [modifyFirst, hpf, heq]

theorem modifyFirst_modifyFirst {p : α → Bool} {f : α → α}
    (hp : ∀ a, p (f a) = p a) (hf : ∀ a, f (f a) = a) (l : List α) :
    modifyFirst p f (modifyFirst p f l) = l := by
  induction l with
  | nil => rfl
  | cons x xs ih =>
    by_cases hx : p x = true
    · simp [modifyFirst, hx, hp, hf]
    · have hx' : p x = false := by simpa using hx
      simp [modifyFirst, hx', ih]

/-! ### Checklist claims -/

theorem toggleItem_toggleItem (i : ChecklistItem) : toggleItem (toggleItem i) = i := by
  cases i with
  | mk a b c d e => simp [toggleItem]

theorem toggleItem_id (i : ChecklistItem) : (toggleItem i).id = i.id := by
  cases i; rfl

/-- C9.  `toggleCheckbox` is self-inverse; it is the identity when the
section id is absent, or when no item anywhere carries the item id; and
in general it either changes nothing or rewrites exactly the first
matching item of the first matching section to its `isChecked`-flipped
copy, leaving every other section, item and field intact. -/
theorem toggleCheckbox_props (sid iid : String) (c : WorkflowChecklist) :
    toggleCheckbox sid iid (toggleCheckbox sid iid c) = c
  ∧ ((∀ s ∈ c.sections, s.id ≠ sid) → toggleCheckbox sid iid c = c)
  ∧ ((∀ s ∈ c.sections, ∀ i ∈ s.items, i.id ≠ iid) → toggleCheckbox sid iid c = c)
  ∧ (toggleCheckbox sid iid c = c ∨
      ∃ pre sec post ipre it ipost,
        c.sections = pre ++ sec :: post ∧ sec.items = ipre ++ it :: ipost ∧
        sec.id = sid ∧ it.id = iid ∧
        (∀ s ∈ pre, s.id ≠ sid) ∧ (∀ i ∈ ipre, i.id ≠ iid) ∧
        toggleCheckbox sid iid c =
          { c with sections := pre ++ { sec with items := ipre ++ toggleItem it :: ipost } :: post }) := by
  refine ⟨?_, ?_, ?_, ?_⟩
  · show ({ c with sections := _ } : WorkflowChecklist) = c
    have : ∀ l : List ChecklistSection,
        modifyFirst (fun s => s.id == sid)
          (fun s => { s with items := modifyFirst (fun i => i.id == iid) toggleItem s.items })
          (modifyFirst (fun s => s.id == sid)
            (fun s => { s with items := modifyFirst (fun i => i.id == iid) toggleItem s.items }) l) = l := by
      intro l
      apply modifyFirst_modifyFirst
      · intro s; rfl
      · intro s
        have inner : modifyFirst (fun i => i.id == iid) toggleItem
            (modifyFirst (fun i => i.id == iid) toggleItem s.items) = s.items := by
          apply modifyFirst_modifyFirst
          · intro i; simp [toggleItem_id]
          · exact toggleItem_toggleItem
        simp [inner]
    simp [toggleCheckbox, this]
  · intro h
    have : modifyFirst (fun s => s.id == sid)
        (fun s => { s with items := modifyFirst (fun i => i.id == iid) toggleItem s.items })
        c.sections = c.sections :=
      modifyFirst_eq_of_forall_false (fun a ha => by simpa using h a ha)
    simp [toggleCheckbox, this]
  · intro h
    have : modifyFirst (fun s => s.id == sid)
        (fun s => { s with items := modifyFirst (fun i => i.id == iid) toggleItem s.items })
        c.sections = c.sections := by
      apply modifyFirst_eq_of_fix
      intro s hs
      have : modifyFirst (fun i => i.id == iid) toggleItem s.items = s.items :=
        modifyFirst_eq_of_forall_false (fun i hi => by simpa using h s hs i hi)
      simp [this]
    simp [toggleCheckbox, this]
  · rcases modifyFirst_split (fun s => s.id == sid)
        (fun s => { s with items := modifyFirst (fun i => i.id == iid) toggleItem s.items })
        c.sections with ⟨_, heq⟩ | ⟨pre, sec, post, hsplit, hpsec, hpre, heq⟩
    · exact Or.inl (by simp [toggleCheckbox, heq])
    · rcases modifyFirst_split (fun i => i.id == iid) toggleItem sec.items with
        ⟨_, ieq⟩ | ⟨ipre, it, ipost, isplit, hpit, hipre, ieq⟩
      · refine Or.inl ?_
        have : ({ sec with items := modifyFirst (fun i => i.id == iid) toggleItem sec.items }
            : ChecklistSection) = sec := by simp [ieq]
        simp [toggleCheckbox, heq, this, ← hsplit]
      · refine Or.inr ⟨pre, sec, post, ipre, it, ipost, hsplit, isplit,
          by simpa using hpsec, by simpa using hpit,
          fun s hs => by simpa using hpre s hs, fun i hi => by simpa using hipre i hi, ?_⟩
        simp [toggleCheckbox, heq, ieq]

/-- Witness for C9 at a concrete checklist: the double toggle restores
the original, and a toggle with an absent section id changes nothing. -/
theorem toggleCheckbox_props_witness :
    toggleCheckbox "section-1" "item-1-1"
        (toggleCheckbox "section-1" "item-1-1" exChecklist) = exChecklist
  ∧ toggleCheckbox "section-9" "item-1-1" exChecklist = exChecklist :=
  ⟨(toggleCheckbox_props "section-1" "item-1-1" exChecklist).1,
   (toggleCheckbox_props "section-9" "item-1-1" exChecklist).2.1 (by decide)⟩

theorem foldl_items_counts (items : List ChecklistItem) (acc : Nat × Nat) :
    items.foldl
      (fun acc2 i => (acc2.1 + (if i.isChecked then 1 else 0), acc2.2 + 1)) acc
    = (acc.1 + items.countP (fun i => i.isChecked), acc.2 + items.length) := by
  induction items generalizing acc with
  | nil => simp
  | cons i items ih =>
    cases h : i.isChecked <;>
      simp [List.foldl_cons, ih, List.countP_cons, h, Prod.ext_iff] <;> omega

theorem foldl_sections_counts (ss : List ChecklistSection) (acc : Nat × Nat) :
    ss.foldl
      (fun acc s =>
        s.items.foldl
          (fun acc2 i => (acc2.1 + (if i.isChecked then 1 else 0), acc2.2 + 1)) acc)
      acc
    = (acc.1 + (ss.map (fun s => s.items.countP (fun i => i.isChecked))).sum,
       acc.2 + (ss.map (fun s => s.items.length)).sum) := by
  induction ss generalizing acc with
  | nil => simp
  | cons s ss ih =>
    rw [List.foldl_cons, ih, foldl_items_counts]
    simp only [List.map_cons, List.sum_cons, Prod.ext_iff]
    omega

theorem percentage_round_eq (cc tt : Nat) :
    (if 0 < tt then mathRound ((cc : ℚ) / (tt : ℚ) * 100) else 0)
      = (if tt = 0 then 0 else mathRound ((100 * (cc : ℚ)) / (tt : ℚ))) := by
  rcases Nat.eq_zero_or_pos tt with h | h
  · simp [h]
  · have hne : (tt : ℚ) ≠ 0 := by exact_mod_cast Nat.pos_iff_ne_zero.1 h
    rw [if_pos h, if_neg (Nat.pos_iff_ne_zero.1 h)]
    congr 1
    field_simp
    ring

/-- C10.  `calculateProgress` returns the number of items across all
sections as `total`, the number of checked items as `completed` (never
more than `total`), and the percentage `round(100·completed/total)`,
with `0` when there are no items at all. -/
theorem calculateProgress_correct (c : WorkflowChecklist) :
    (calculateProgress c).total = (c.sections.map (fun s => s.items.length)).sum
  ∧ (calculateProgress c).completed
      = (c.sections.map (fun s => s.items.countP (fun i => i.isChecked))).sum
  ∧ (calculateProgress c).completed ≤ (calculateProgress c).total
  ∧ (calculateProgress c).percentage =
      (if (calculateProgress c).total = 0 then 0
       else mathRound ((100 * ((calculateProgress c).completed : ℚ)) /
         ((calculateProgress c).total : ℚ))) := by
  have h1 : (calculateProgress c).total = (c.sections.map (fun s => s.items.length)).sum := by
    simp [calculateProgress, foldl_sections_counts]
  have h2 : (calculateProgress c).completed
      = (c.sections.map (fun s => s.items.countP (fun i => i.isChecked))).sum := by
    simp [calculateProgress, foldl_sections_counts]
  have hle : (c.sections.map (fun s => s.items.countP (fun i => i.isChecked))).sum
      ≤ (c.sections.map (fun s => s.items.length)).sum :=
    List.sum_le_sum (fun s _ => List.countP_le_length _)
  refine ⟨h1, h2, by rw [h1, h2]; exact hle, ?_⟩
  show (calculateProgress c).percentage = _
  simp only [calculateProgress]
  exact percentage_round_eq _ _

/-! ### Watcher lemmas and claims -/

theorem mem_addKnownId (known : List String) (i x : String) :
    x ∈ addKnownId known i ↔ x ∈ known ∨ x = i := by
  by_cases h : known.contains i = true
  · have hmem : i ∈ known := by simpa using h
    simp only [addKnownId]
    rw [if_pos h]
    constructor
    · exact Or.inl
    · rintro (hx | rfl)
      · exact hx
      · exact hmem
  · simp only [addKnownId]
    rw [if_neg h]
    simp

theorem contains_addKnownId (known : List String) (i x : String) :
    ((addKnownId known i).contains x) = (known.contains x || x == i) := by
  rw [Bool.eq_iff_iff]
  simp [mem_addKnownId]

theorem mem_updateKnownTasks (ts : List JiraTask) (known : List String) (x : String) :
    x ∈ updateKnownTasks known ts ↔ x ∈ known ∨ x ∈ ts.map (fun t => t.id) := by
  induction ts generalizing known with
  | nil => simp [updateKnownTasks]
  | cons t ts ih =>
    simp only [updateKnownTasks, ih, mem_addKnownId, List.map_cons, List.mem_cons]
    tauto

theorem detectNewTasks_eq (ts : List JiraTask) (known : List String)
    (h : (ts.map (fun t => t.id)).Nodup) :
    detectNewTasks known ts
      = (ts.filter (fun t => !(known.contains t.id)), updateKnownTasks known ts) := by
  induction ts generalizing known with
  | nil => rfl
  | cons t ts ih =>
    simp only [List.map_cons, List.nodup_cons, List.mem_map] at h
    obtain ⟨hnot, hnd⟩ := h
    by_cases hc : known.contains t.id = true
    · have haddeq : addKnownId known t.id = known := by
        simp only [addKnownId]; rw [if_pos hc]
      have hdet : detectNewTasks known (t :: ts) = detectNewTasks known ts := by
        simp only [detectNewTasks]; rw [if_pos hc]
      have hupd : updateKnownTasks known (t :: ts) = updateKnownTasks known ts := by
        simp only [updateKnownTasks, haddeq]
      have hfil : (t :: ts).filter (fun x => !(known.contains x.id))
          = ts.filter (fun x => !(known.contains x.id)) := by
        have hmem : t.id ∈ known := by simpa using hc
        rw [List.filter_cons]
        simp [hmem]
      rw [hdet, hupd, hfil, ih known hnd]
    · have hnc : ¬ (known.contains t.id = true) := hc
      have hc' : known.contains t.id = false := by simpa using hc
      have hdet : detectNewTasks known (t :: ts)
          = (t :: (detectNewTasks (addKnownId known t.id) ts).1,
             (detectNewTasks (addKnownId known t.id) ts).2) := by
        simp only [detectNewTasks]; rw [if_neg hnc]
      have hupd : updateKnownTasks known (t :: ts)
          = updateKnownTasks (addKnownId known t.id) ts := rfl
      have hfilter : ts.filter (fun x => !((addKnownId known t.id).contains x.id))
          = ts.filter (fun x => !(known.contains x.id)) := by
        apply List.filter_congr
        intro x hx
        have hne : ¬ x.id = t.id := fun he => hnot ⟨x, hx, he⟩
        rw [contains_addKnownId]
        simp [hne]
      have hfil2 : (t :: ts).filter (fun x => !(known.contains x.id))
          = t :: ts.filter (fun x => !(known.contains x.id)) := by
        have hmem : t.id ∉ known := by simpa using hc'
        rw [List.filter_cons]
        simp [hmem]
      rw [hdet, hupd, hfil2, ih (addKnownId known t.id) hnd, hfilter]

theorem pollTick_eq_specTick (known : List String) (f : Option (List JiraTask))
    (h : nodupIdsOpt f = true) : pollTick known f = specTick known f := by
  cases f with
  | none => rfl
  | some ts =>
    have hnd : (ts.map (fun t => t.id)).Nodup := by
      simpa [nodupIdsOpt] using h
    simp only [pollTick, specTick, detectNewTasks_eq ts known hnd]
    congr 1
    by_cases he : ts.filter (fun t => !(known.contains t.id)) = []
    · rw [he]
      simp
    · have h1 : 0 < (ts.filter (fun t => !(known.contains t.id))).length :=
        List.length_pos.2 he
      have h2 : (ts.filter (fun t => !(known.contains t.id))).isEmpty = false := by
        simpa [List.isEmpty_iff] using he
      rw [if_pos h1, h2]
      simp

theorem pollRun_eq_specRun (ticks : List (Option (List JiraTask))) (known : List String)
    (h : ∀ f ∈ ticks, nodupIdsOpt f = true) :
    pollRun known ticks = specRun known ticks := by
  induction ticks generalizing known with
  | nil => rfl
  | cons f fs ih =>
    simp only [pollRun, specRun,
      pollTick_eq_specTick known f (h f (List.mem_cons_self f fs)),
      ih _ (fun g hg => h g (List.mem_cons_of_mem f hg))]

theorem pollRun_emissions_nonempty (ticks : List (Option (List JiraTask))) (known : List String) :
    ∀ e ∈ (pollRun known ticks).2, e ≠ [] := by
  induction ticks generalizing known with
  | nil => simp [pollRun]
  | cons f fs ih =>
    intro e he
    simp only [pollRun] at he
    cases f with
    | none => exact ih _ e (by simpa [pollTick] using he)
    | some ts =>
      simp only [pollTick] at he
      by_cases hp : 0 < (detectNewTasks known ts).1.length
      · rw [if_pos hp] at he
        rcases List.mem_cons.1 he with rfl | he'
        · exact List.length_pos.1 hp
        · exact ih _ e he'
      · rw [if_neg hp] at he
        exact ih _ e he

/-- C3.  With duplicate-free task ids (as the data model guarantees),
the watcher's run coincides with the spec-level run: the initial fetch
only seeds the known set and produces no callback, and every tick's
callback payload is exactly the fetched tasks whose ids were unknown
immediately before the tick, in fetch order, the callback firing only
for a non-empty payload. -/
theorem watcher_detection (init : Option (List JiraTask))
    (ticks : List (Option (List JiraTask)))
    (hnodup : ∀ f ∈ ticks, nodupIdsOpt f = true) :
    watcherRun init ticks = specWatcherRun init ticks
  ∧ (∀ e ∈ (watcherRun init ticks).2, e ≠ []) := by
  constructor
  · cases init with
    | none => exact pollRun_eq_specRun ticks [] hnodup
    | some ts => exact pollRun_eq_specRun ticks (updateKnownTasks [] ts) hnodup
  · cases init with
    | none => exact pollRun_emissions_nonempty ticks []
    | some ts => exact pollRun_emissions_nonempty ticks (updateKnownTasks [] ts)

/-- Witness for C3: a seed fetch returning tasks A and B followed by a
tick returning A, B and C; the run agrees with the spec run (whose only
emission is `[C]`) and no emission is empty. -/
theorem watcher_detection_witness :
    watcherRun (some [exTaskA, exTaskB]) [some [exTaskA, exTaskB, exTaskC]]
      = specWatcherRun (some [exTaskA, exTaskB]) [some [exTaskA, exTaskB, exTaskC]]
  ∧ (∀ e ∈ (watcherRun (some [exTaskA, exTaskB]) [some [exTaskA, exTaskB, exTaskC]]).2, e ≠ []) :=
  watcher_detection (some [exTaskA, exTaskB]) [some [exTaskA, exTaskB, exTaskC]] (by decide)

/-- The single tick of the C3 example indeed invokes the callback
exactly once, with exactly the one task that was unknown before. -/
theorem watcher_example_emits_only_C :
    (watcherRun (some [exTaskA, exTaskB]) [some [exTaskA, exTaskB, exTaskC]]).2
      = [[exTaskC]] := by decide

/-- The seed pass alone never invokes the callback. -/
theorem watcher_seed_no_emission (init : Option (List JiraTask)) :
    (watcherRun init []).2 = [] := by
  cases init <;> rfl

/-- C8 (amended statement is the claim itself; this confirms it).  A
failed tick is invisible to the run: dropping a `none` tick anywhere in
the schedule leaves both the final known set and the entire emission
sequence unchanged, and the failing tick itself changes nothing and
emits nothing. -/
theorem fetch_failure_skips_tick (init : Option (List JiraTask))
    (pre post : List (Option (List JiraTask))) :
    watcherRun init (pre ++ none :: post) = watcherRun init (pre ++ post)
  ∧ (∀ known : List String, pollTick known none = (known, none)) := by
  constructor
  · have key : ∀ (known : List String) (pre post : List (Option (List JiraTask))),
        pollRun known (pre ++ none :: post) = pollRun known (pre ++ post) := by
      intro known pre post
      induction pre generalizing known with
      | nil => simp [pollRun, pollTick]
      | cons f fs ih =>
        simp only [List.cons_append, pollRun, List.append_eq]
        rw [ih]
    cases init with
    | none => exact key [] pre post
    | some ts => exact key (updateKnownTasks [] ts) pre post
  · intro known
    rfl

/-- C5 counterexample.  Stop the watcher while a fetch is in flight:
the completion handler still runs `detectNewTasks` and the callback.
Concretely, with known tasks {A, B}, after `stopNotificationPolling`
an in-flight fetch returning {A, B, C} still invokes the callback with
`[C]` and still adds C's id to the known set — contradicting the claim
that no side effect of an in-flight fetch is applied after `stop()`. -/
theorem stop_inflight_counterexample :
    (tickCompletion
        (stopNotificationPolling ⟨updateKnownTasks [] [exTaskA, exTaskB], true⟩)
        (some [exTaskA, exTaskB, exTaskC])).2 = some [exTaskC]
  ∧ ((tickCompletion
        (stopNotificationPolling ⟨updateKnownTasks [] [exTaskA, exTaskB], true⟩)
        (some [exTaskA, exTaskB, exTaskC])).1).known.contains "C" = true
  ∧ (stopNotificationPolling
        ⟨updateKnownTasks [] [exTaskA, exTaskB], true⟩).pollingActive = false := by
  refine ⟨?_, ?_, rfl⟩ <;> decide

/-- C5 amended.  `stopNotificationPolling` only clears the interval
handle; the completion handler of a tick has no "still running" guard,
so a fetch in flight at the moment of `stop()` applies exactly the same
effects as on a running watcher: same known-set update and same
callback payload. -/
theorem stop_does_not_guard_completion (known : List String)
    (fetch : Option (List JiraTask)) :
    (tickCompletion ⟨known, false⟩ fetch).2 = (tickCompletion ⟨known, true⟩ fetch).2
  ∧ (tickCompletion ⟨known, false⟩ fetch).1.known
      = (tickCompletion ⟨known, true⟩ fetch).1.known
  ∧ (tickCompletion ⟨known, false⟩ fetch).1.pollingActive = false :=
  ⟨rfl, rfl, rfl⟩

/-! ### Categorizer claims -/

/-- C2.  `categorizeTask` follows first-match-wins priority: a "done"
synonym in the status wins regardless of version associations; else a
"discarded" synonym; else no versions means No-Version; else only the
first version association is inspected and its `released` flag decides
Released versus Unreleased, carrying that version's name and release
date. -/
theorem categorizeTask_priority (t : JiraTask) :
    (statusIsDone t.status = true → categorizeTask t = ⟨.Done, none, none⟩)
  ∧ (statusIsDone t.status = false → statusIsDiscarded t.status = true →
      categorizeTask t = ⟨.Discarded, none, none⟩)
  ∧ (statusIsDone t.status = false → statusIsDiscarded t.status = false →
      (t.fixVersions = none ∨ t.fixVersions = some []) →
      categorizeTask t = ⟨.NoVersion, none, none⟩)
  ∧ (∀ v vs, statusIsDone t.status = false → statusIsDiscarded t.status = false →
      t.fixVersions = some (v :: vs) →
      categorizeTask t =
        (if v.released then ⟨.Released, some v.name, v.releaseDate⟩
         else ⟨.Unreleased, some v.name, v.releaseDate⟩)) := by
  refine ⟨?_, ?_, ?_, ?_⟩
  · intro hd
    simp [categorizeTask, hd]
  · intro hd hdis
    simp [categorizeTask, hd, hdis]
  · intro hd hdis hfv
    rcases hfv with hfv | hfv <;> simp [categorizeTask, hd, hdis, hfv]
  · intro v vs hd hdis hfv
    simp [categorizeTask, hd, hdis, hfv]

/-- Witness for C2: a task whose status contains "Resolved" is Done
despite having a released fix version, and a task with a first
unreleased version is Unreleased with that version's fields. -/
theorem categorizeTask_priority_witness :
    categorizeTask exTaskResolved = ⟨.Done, none, none⟩
  ∧ categorizeTask exTaskUnrJan =
      ⟨.Unreleased, some "U1", some "2024-01-01"⟩ := by
  constructor
  · exact (categorizeTask_priority exTaskResolved).1 (by decide)
  · have h := (categorizeTask_priority exTaskUnrJan).2.2.2
      { id := "14", name := "U1", released := false, releaseDate := some "2024-01-01" } []
      (by decide) (by decide) (by decide)
    simpa using h

/-! ### Lexicographic comparison lemmas -/

theorem cmpCharList_swap : ∀ a b : List Char, cmpCharList b a = -cmpCharList a b
  | [], [] => by simp [cmpCharList]
  | [], _ :: _ => by simp [cmpCharList]
  | _ :: _, [] => by simp [cmpCharList]
  | a :: as, b :: bs => by
    simp only [cmpCharList]
    rcases Nat.lt_trichotomy a.toNat b.toNat with h | h | h
    · simp [h, Nat.lt_asymm h]
    · simp only [h, lt_irrefl, if_false]
      exact cmpCharList_swap as bs
    · simp [h, Nat.lt_asymm h]

theorem cmpCharList_le_trans : ∀ a b c : List Char,
    cmpCharList a b ≤ 0 → cmpCharList b c ≤ 0 → cmpCharList a c ≤ 0
  | [], b, c, _, _ => by cases c <;> simp [cmpCharList]
  | _ :: _, [], _, h1, _ => by simp [cmpCharList] at h1
  | _ :: _, _ :: _, [], _, h2 => by simp [cmpCharList] at h2
  | a :: as, b :: bs, c :: cs, h1, h2 => by
    simp only [cmpCharList] at h1 h2 ⊢
    rcases Nat.lt_trichotomy a.toNat b.toNat with hab | hab | hab
    · rcases Nat.lt_trichotomy b.toNat c.toNat with hbc | hbc | hbc
      · rw [if_pos (by omega)]; omega
      · rw [if_pos (by omega)]; omega
      · rw [if_neg (Nat.lt_asymm hbc), if_pos hbc] at h2; omega
    · rcases Nat.lt_trichotomy b.toNat c.toNat with hbc | hbc | hbc
      · rw [if_pos (by omega)]; omega
      · rw [if_neg (by omega), if_neg (by omega)] at h1
        rw [if_neg (by omega), if_neg (by omega)] at h2
        rw [if_neg (by omega), if_neg (by omega)]
        exact cmpCharList_le_trans as bs cs h1 h2
      · rw [if_neg (Nat.lt_asymm hbc), if_pos hbc] at h2; omega
    · rw [if_neg (Nat.lt_asymm hab), if_pos hab] at h1; omega

theorem cmpCharList_le_total (a b : List Char) :
    cmpCharList a b ≤ 0 ∨ cmpCharList b a ≤ 0 := by
  rcases le_or_lt (cmpCharList a b) 0 with h | h
  · exact Or.inl h
  · right
    rw [cmpCharList_swap]
    omega

theorem strCmpInt_le_trans (a b c : String) :
    strCmpInt a b ≤ 0 → strCmpInt b c ≤ 0 → strCmpInt a c ≤ 0 :=
  cmpCharList_le_trans a.data b.data c.data

theorem strCmpInt_le_total (a b : String) :
    strCmpInt a b ≤ 0 ∨ strCmpInt b a ≤ 0 :=
  cmpCharList_le_total a.data b.data

/-! ### Stable insertion sort lemmas -/

theorem mem_insertS (le : α → α → Bool) (x : α) :
    ∀ (l : List α) (y : α), y ∈ insertS le x l ↔ y = x ∨ y ∈ l
  | [], y => by simp [insertS]
  | z :: zs, y => by
    simp only [insertS]
    by_cases h : le z x = true
    · rw [if_pos h]
      simp only [List.mem_cons, mem_insertS le x zs y]
      tauto
    · rw [if_neg h]
      simp only [List.mem_cons]

theorem perm_insertS (le : α → α → Bool) (x : α) :
    ∀ l : List α, (insertS le x l).Perm (x :: l)
  | [] => List.Perm.refl _
  | z :: zs => by
    simp only [insertS]
    by_cases h : le z x = true
    · rw [if_pos h]
      exact ((perm_insertS le x zs).cons z).trans (List.Perm.swap x z zs)
    · rw [if_neg h]

theorem perm_sortS (le : α → α → Bool) (l : List α) : (sortS le l).Perm l := by
  have key : ∀ (l : List α) (acc : List α),
      (l.foldl (fun acc x => insertS le x acc) acc).Perm (l ++ acc) := by
    intro l
    induction l with
    | nil => intro acc; simp
    | cons x xs ih =>
      intro acc
      have p1 := ih (insertS le x acc)
      have p2 : (xs ++ insertS le x acc).Perm (xs ++ x :: acc) :=
        List.Perm.append_left xs (perm_insertS le x acc)
      have p3 : (xs ++ x :: acc).Perm (x :: (xs ++ acc)) := List.perm_middle
      simpa using (p1.trans (p2.trans p3))
  simpa using key l []

theorem mem_sortS (le : α → α → Bool) (l : List α) (y : α) :
    y ∈ sortS le l ↔ y ∈ l :=
  (perm_sortS le l).mem_iff

theorem pairwise_insertS (le : α → α → Bool) (good : α → Prop)
    (htr : ∀ a b c, good a → good b → good c →
      le a b = true → le b c = true → le a c = true)
    (hto : ∀ a b, good a → good b → le a b = true ∨ le b a = true)
    (x : α) (hx : good x) :
    ∀ l : List α, (∀ y ∈ l, good y) →
      l.Pairwise (fun a b => le a b = true) →
      (insertS le x l).Pairwise (fun a b => le a b = true)
  | [], _, _ => by simp [insertS]
  | z :: zs, hg, hp => by
    simp only [insertS]
    obtain ⟨hz, hzs⟩ := List.pairwise_cons.1 hp
    by_cases h : le z x = true
    · rw [if_pos h]
      refine List.pairwise_cons.2 ⟨?_, ?_⟩
      · intro y hy
        rcases (mem_insertS le x zs y).1 hy with rfl | hy
        · exact h
        · exact hz y hy
      · exact pairwise_insertS le good htr hto x hx zs
          (fun y hy => hg y (List.mem_cons_of_mem z hy)) hzs
    · rw [if_neg h]
      have hgz : good z := hg z (List.mem_cons_self z zs)
      have hxz : le x z = true := by
        rcases hto x z hx hgz with h' | h'
        · exact h'
        · exact absurd h' h
      refine List.pairwise_cons.2 ⟨?_, hp⟩
      intro y hy
      rcases List.mem_cons.1 hy with rfl | hy
      · exact hxz
      · exact htr x z y hx hgz (hg y (List.mem_cons_of_mem z hy)) hxz (hz y hy)

theorem pairwise_sortS (le : α → α → Bool) (good : α → Prop)
    (htr : ∀ a b c, good a → good b → good c →
      le a b = true → le b c = true → le a c = true)
    (hto : ∀ a b, good a → good b → le a b = true ∨ le b a = true)
    (l : List α) (hg : ∀ y ∈ l, good y) :
    (sortS le l).Pairwise (fun a b => le a b = true) := by
  have key : ∀ (l : List α) (acc : List α), (∀ y ∈ l, good y) → (∀ y ∈ acc, good y) →
      acc.Pairwise (fun a b => le a b = true) →
      (l.foldl (fun acc x => insertS le x acc) acc).Pairwise (fun a b => le a b = true) := by
    intro l
    induction l with
    | nil =>
      intro acc _ _ hp
      simpa using hp
    | cons x xs ih =>
      intro acc hgl hga hp
      refine ih (insertS le x acc) (fun y hy => hgl y (List.mem_cons_of_mem x hy)) ?_ ?_
      · intro y hy
        rcases (mem_insertS le x acc y).1 hy with he | hy
        · rw [he]
          exact hgl x (List.mem_cons_self x xs)
        · exact hga y hy
      · exact pairwise_insertS le good htr hto x (hgl x (List.mem_cons_self x xs)) acc hga hp
  exact key l [] hg (by simp) (by simp)

/-! ### `tasksByVersion` accumulation lemmas -/

theorem addToGroups_tasks_perm (k : String) (r : CatResult) (t : JiraTask) :
    ∀ m : List (String × VGroup),
      (((addToGroups k r t m).map (fun e => e.2.tasks)).flatten).Perm
        ((m.map (fun e => e.2.tasks)).flatten ++ [t])
  | [] => by simp [addToGroups]
  | (k', g) :: rest => by
    simp only [addToGroups]
    by_cases h : (k' == k) = true
    · rw [if_pos h]
      simp only [List.map_cons, List.flatten_cons]
      have : (g.tasks ++ [t]) ++ (rest.map (fun e => e.2.tasks)).flatten =
          g.tasks ++ ([t] ++ (rest.map (fun e => e.2.tasks)).flatten) := by
        simp [List.append_assoc]
      rw [this, List.append_assoc]
      exact List.Perm.append_left g.tasks List.perm_append_comm
    · rw [if_neg h]
      simp only [List.map_cons, List.flatten_cons, List.append_assoc]
      exact List.Perm.append_left g.tasks (addToGroups_tasks_perm k r t rest)

theorem categorizeAll_tasks_perm (ts : List JiraTask) :
    (((categorizeAll ts).map (fun e => e.2.tasks)).flatten).Perm ts := by
  have key : ∀ (ts : List JiraTask) (m : List (String × VGroup)),
      (((ts.foldl (fun m t =>
          let r := categorizeTask t
          addToGroups (versionKey r.category r.versionName) r t m) m).map
        (fun e => e.2.tasks)).flatten).Perm
        ((m.map (fun e => e.2.tasks)).flatten ++ ts) := by
    intro ts
    induction ts with
    | nil => intro m; simp
    | cons t ts ih =>
      intro m
      simp only [List.foldl_cons]
      refine (ih _).trans ?_
      have h1 := addToGroups_tasks_perm
        (versionKey (categorizeTask t).category (categorizeTask t).versionName)
        (categorizeTask t) t m
      have h2 : ((m.map (fun e => e.2.tasks)).flatten ++ [t] ++ ts).Perm
          ((m.map (fun e => e.2.tasks)).flatten ++ (t :: ts)) := by
        rw [List.append_assoc]
        exact List.Perm.append_left _ (List.Perm.refl _)
      exact (h1.append_right ts).trans h2
  simpa using key ts []

theorem mem_addToGroups_data (k : String) (r : CatResult) (t : JiraTask) :
    ∀ (m : List (String × VGroup)) (e : String × VGroup), e ∈ addToGroups k r t m →
      entryData e = (k, r.category, r.versionName, r.releaseDate)
      ∨ ∃ e' ∈ m, entryData e = entryData e'
  | [], e, he => by
    simp only [addToGroups, List.mem_singleton] at he
    subst he
    exact Or.inl rfl
  | (k', g) :: rest, e, he => by
    simp only [addToGroups] at he
    by_cases h : (k' == k) = true
    · rw [if_pos h] at he
      rcases List.mem_cons.1 he with rfl | he'
      · exact Or.inr ⟨(k', g), List.mem_cons_self _ _, rfl⟩
      · exact Or.inr ⟨e, List.mem_cons_of_mem _ he', rfl⟩
    · rw [if_neg h] at he
      rcases List.mem_cons.1 he with rfl | he'
      · exact Or.inr ⟨(k', g), List.mem_cons_self _ _, rfl⟩
      · rcases mem_addToGroups_data k r t rest e he' with hl | ⟨e', he'', hd⟩
        · exact Or.inl hl
        · exact Or.inr ⟨e', List.mem_cons_of_mem _ he'', hd⟩

theorem categorizeAll_data (ts : List JiraTask) (e : String × VGroup)
    (he : e ∈ categorizeAll ts) :
    ∃ t ∈ ts, entryData e =
      (versionKey (categorizeTask t).category (categorizeTask t).versionName,
       (categorizeTask t).category, (categorizeTask t).versionName,
       (categorizeTask t).releaseDate) := by
  have key : ∀ (ts : List JiraTask) (m : List (String × VGroup)) (e : String × VGroup),
      e ∈ ts.foldl (fun m t =>
        let r := categorizeTask t
        addToGroups (versionKey r.category r.versionName) r t m) m →
      (∃ e' ∈ m, entryData e = entryData e') ∨
      ∃ t ∈ ts, entryData e =
        (versionKey (categorizeTask t).category (categorizeTask t).versionName,
         (categorizeTask t).category, (categorizeTask t).versionName,
         (categorizeTask t).releaseDate) := by
    intro ts
    induction ts with
    | nil =>
      intro m e he
      exact Or.inl ⟨e, he, rfl⟩
    | cons t ts ih =>
      intro m e he
      simp only [List.foldl_cons] at he
      rcases ih _ e he with ⟨e', he', hd⟩ | ⟨t', ht', hd⟩
      · rcases mem_addToGroups_data _ _ _ _ e' he' with hl | ⟨e'', he'', hd'⟩
        · exact Or.inr ⟨t, List.mem_cons_self _ _, hd.trans hl⟩
        · exact Or.inl ⟨e'', he'', hd.trans hd'⟩
      · exact Or.inr ⟨t', List.mem_cons_of_mem _ ht', hd⟩
  rcases key ts [] e he with ⟨e', he', _⟩ | h
  · simp at he'
  · exact h

theorem keys_addToGroups (k : String) (r : CatResult) (t : JiraTask) :
    ∀ m : List (String × VGroup),
      (addToGroups k r t m).map Prod.fst
        = (if (m.map Prod.fst).contains k then m.map Prod.fst else m.map Prod.fst ++ [k])
  | [] => by simp [addToGroups]
  | (k', g) :: rest => by
    simp only [addToGroups]
    by_cases h : (k' == k) = true
    · rw [if_pos h]
      have hk : k = k' := (eq_of_beq h).symm
      subst hk
      simp [List.contains_cons]
    · rw [if_neg h]
      have hk : ¬ k = k' := fun he => h (by simp [he])
      simp only [List.map_cons, keys_addToGroups k r t rest, List.contains_cons]
      have : (k == k') = false := by simpa using hk
      rw [this]
      by_cases hc : (rest.map Prod.fst).contains k = true
      · have hm : k ∈ rest.map Prod.fst := by simpa using hc
        simp [hm]
      · have hm : k ∉ rest.map Prod.fst := by simpa using hc
        simp [hm]

theorem keys_nodup_categorizeAll (ts : List JiraTask) :
    ((categorizeAll ts).map Prod.fst).Nodup := by
  have key : ∀ (ts : List JiraTask) (m : List (String × VGroup)),
      (m.map Prod.fst).Nodup →
      ((ts.foldl (fun m t =>
        let r := categorizeTask t
        addToGroups (versionKey r.category r.versionName) r t m) m).map Prod.fst).Nodup := by
    intro ts
    induction ts with
    | nil => intro m hm; exact hm
    | cons t ts ih =>
      intro m hm
      simp only [List.foldl_cons]
      refine ih _ ?_
      rw [keys_addToGroups]
      by_cases hc : (m.map Prod.fst).contains
          (versionKey (categorizeTask t).category (categorizeTask t).versionName) = true
      · rw [if_pos hc]; exact hm
      · rw [if_neg hc]
        have hnm : versionKey (categorizeTask t).category (categorizeTask t).versionName
            ∉ m.map Prod.fst := by simpa using hc
        simp [List.nodup_append, hm, hnm]
  exact key ts [] (by simp)

/-! ### Map-key invariants -/

theorem categorizeTask_singleton_vn (t : JiraTask) :
    ((categorizeTask t).category = .NoVersion ∨ (categorizeTask t).category = .Done
      ∨ (categorizeTask t).category = .Discarded) →
    (categorizeTask t).versionName = none := by
  intro h
  unfold categorizeTask at *
  by_cases hd : statusIsDone t.status = true
  · simp [hd]
  · have hd' : statusIsDone t.status = false := by simpa using hd
    by_cases hdis : statusIsDiscarded t.status = true
    · simp [hd', hdis]
    · have hdis' : statusIsDiscarded t.status = false := by simpa using hdis
      rcases hfv : t.fixVersions with _ | vs
      · simp [hd', hdis', hfv]
      · rcases vs with _ | ⟨v, vs⟩
        · simp [hd', hdis', hfv]
        · rw [hfv] at h
          by_cases hr : v.released = true <;> simp [hd', hdis', hfv, hr] at h ⊢

theorem append_sep_inj (sep : Char) :
    ∀ a b x y : List Char, sep ∉ a → sep ∉ b →
      a ++ sep :: x = b ++ sep :: y → a = b ∧ x = y
  | [], [], x, y, _, _, h => by simpa using h
  | [], c :: bs, x, y, _, hb, h => by
    simp only [List.nil_append, List.cons_append, List.cons.injEq] at h
    obtain ⟨rfl, -⟩ := h
    exact absurd (List.mem_cons_self _ _) hb
  | c :: as, [], x, y, ha, _, h => by
    simp only [List.nil_append, List.cons_append, List.cons.injEq] at h
    obtain ⟨rfl, -⟩ := h
    exact absurd (List.mem_cons_self _ _) ha
  | c :: as, c' :: bs, x, y, ha, hb, h => by
    simp only [List.cons_append, List.cons.injEq] at h
    obtain ⟨rfl, h2⟩ := h
    have := append_sep_inj sep as bs x y
      (fun hm => ha (List.mem_cons_of_mem c hm))
      (fun hm => hb (List.mem_cons_of_mem c hm)) h2
    exact ⟨by rw [this.1], this.2⟩

theorem dash_not_mem_catLabel (c : VersionCategory) :
    Char.ofNat 45 ∉ (catLabel c).data := by
  cases c <;> decide

theorem dash_data : ("-" : String).data = [Char.ofNat 45] := by decide

theorem catLabel_inj (c c' : VersionCategory) (h : catLabel c = catLabel c') : c = c' := by
  cases c <;> cases c' <;> first | rfl | (exfalso; revert h; decide)

theorem versionKey_cat_inj (c c' : VersionCategory) (vn vn' : Option String)
    (h : versionKey c vn = versionKey c' vn') : c = c' := by
  have hsplit : ∀ (cc : VersionCategory) (v : Option String),
      versionKey cc v = catLabel cc ∨
      ∃ n : String, versionKey cc v = catLabel cc ++ "-" ++ n := by
    intro cc v
    rcases v with _ | n
    · exact Or.inl rfl
    · simp only [versionKey]
      by_cases hn : n.data.isEmpty = true
      · rw [if_pos hn]; exact Or.inl rfl
      · rw [if_neg hn]; exact Or.inr ⟨n, rfl⟩
  have hdash : ∀ (cc : VersionCategory) (n : String),
      Char.ofNat 45 ∈ (catLabel cc ++ "-" ++ n).data := by
    intro cc n
    rw [String.data_append, String.data_append, dash_data]
    simp
  rcases hsplit c vn with h1 | ⟨n, h1⟩ <;> rcases hsplit c' vn' with h2 | ⟨n', h2⟩
  · exact catLabel_inj c c' (by rw [← h1, ← h2, h])
  · exfalso
    have : Char.ofNat 45 ∈ (catLabel c).data := by
      rw [← h1, h, h2]
      exact hdash c' n'
    exact dash_not_mem_catLabel c this
  · exfalso
    have : Char.ofNat 45 ∈ (catLabel c').data := by
      rw [← h2, ← h, h1]
      exact hdash c n
    exact dash_not_mem_catLabel c' this
  · have hd : (catLabel c).data ++ Char.ofNat 45 :: n.data
        = (catLabel c').data ++ Char.ofNat 45 :: n'.data := by
      have := congrArg String.data (h1 ▸ h2 ▸ h : catLabel c ++ "-" ++ n = catLabel c' ++ "-" ++ n')
      simpa [String.data_append, dash_data] using this
    have := append_sep_inj (Char.ofNat 45) (catLabel c).data (catLabel c').data n.data n'.data
      (dash_not_mem_catLabel c) (dash_not_mem_catLabel c') hd
    exact catLabel_inj c c' (String.ext this.1)

theorem categorizeAll_entry_key (ts : List JiraTask) (e : String × VGroup)
    (he : e ∈ categorizeAll ts) :
    e.1 = versionKey e.2.category e.2.versionName := by
  obtain ⟨t, _, hd⟩ := categorizeAll_data ts e he
  simp only [entryData, Prod.mk.injEq] at hd
  obtain ⟨h1, h2, h3, _⟩ := hd
  rw [h1, h2, h3]

theorem categorizeAll_entry_vn_none (ts : List JiraTask) (e : String × VGroup)
    (he : e ∈ categorizeAll ts)
    (hc : e.2.category = .NoVersion ∨ e.2.category = .Done ∨ e.2.category = .Discarded) :
    e.2.versionName = none := by
  obtain ⟨t, _, hd⟩ := categorizeAll_data ts e he
  simp only [entryData, Prod.mk.injEq] at hd
  obtain ⟨_, h2, h3, _⟩ := hd
  rw [h3]
  apply categorizeTask_singleton_vn
  rw [← h2]
  exact hc

theorem length_filter_le_one_of_keys (p : VGroup → Bool) (k0 : String) :
    ∀ l : List (String × VGroup), ((l.map Prod.fst).Nodup) →
      (∀ e ∈ l, p e.2 = true → e.1 = k0) →
      (l.filter (fun e => p e.2)).length ≤ 1
  | [], _, _ => by simp
  | e :: l, hnd, hk => by
    simp only [List.map_cons, List.nodup_cons] at hnd
    obtain ⟨hnmem, hnd'⟩ := hnd
    rw [List.filter_cons]
    by_cases hp : p e.2 = true
    · rw [if_pos (by simpa using hp)]
      have hnil : l.filter (fun e => p e.2) = [] := by
        by_contra hne
        obtain ⟨e', he'⟩ := List.exists_mem_of_ne_nil _ hne
        have hmem : e' ∈ l := List.mem_of_mem_filter he'
        have hpe' := List.of_mem_filter he'
        have hk1 : e.1 = k0 := hk e (List.mem_cons_self e l) hp
        have hk2 : e'.1 = k0 := hk e' (List.mem_cons_of_mem e hmem) hpe'
        exact hnmem (by rw [hk1, ← hk2]; exact List.mem_map_of_mem Prod.fst hmem)
      rw [hnil]
      simp
    · rw [if_neg (by simpa using hp)]
      exact length_filter_le_one_of_keys p k0 l hnd'
        (fun e' he' hp' => hk e' (List.mem_cons_of_mem e he') hp')

theorem singleton_cat_filter_le_one (ts : List JiraTask) (c : VersionCategory)
    (hc : c = .NoVersion ∨ c = .Done ∨ c = .Discarded) :
    ((groupsOf ts).filter (fun g => decide (g.category = c))).length ≤ 1 := by
  have hmap : (groupsOf ts).filter (fun g => decide (g.category = c))
      = ((categorizeAll ts).filter (fun e => decide (e.2.category = c))).map Prod.snd := by
    rw [groupsOf, List.filter_map]
    rfl
  rw [hmap, List.length_map]
  apply length_filter_le_one_of_keys (fun g => decide (g.category = c)) (catLabel c)
      (categorizeAll ts) (keys_nodup_categorizeAll ts)
  intro e he hp
  have hcat : e.2.category = c := of_decide_eq_true hp
  have hkey := categorizeAll_entry_key ts e he
  have hvn : e.2.versionName = none := by
    apply categorizeAll_entry_vn_none ts e he
    rw [hcat]
    exact hc
  rw [hkey, hcat, hvn]
  rfl

theorem filter_eq_find_toList (p : α → Bool) :
    ∀ l : List α, (l.filter p).length ≤ 1 → l.filter p = (l.find? p).toList
  | [], _ => by simp
  | x :: l, h => by
    rw [List.filter_cons] at h ⊢
    by_cases hp : p x = true
    · rw [if_pos (by simpa using hp)] at h ⊢
      have hnil : l.filter p = [] := by
        rcases hfe : l.filter p with _ | ⟨y, ys⟩
        · rfl
        · rw [hfe] at h
          simp at h
      rw [hnil, List.find?_cons_of_pos _ hp]
      rfl
    · have hp' : p x = false := by simpa using hp
      rw [if_neg (by simp [hp'])] at h ⊢
      rw [List.find?_cons_of_neg _ (by simp [hp'])]
      exact filter_eq_find_toList p l h

theorem count_filter_eq_zero_of_neg {p : α → Bool} [DecidableEq α] {a : α}
    (hp : p a = false) (l : List α) : (l.filter p).count a = 0 := by
  rw [List.count_eq_zero]
  intro hmem
  have := List.of_mem_filter hmem
  rw [hp] at this
  exact Bool.false_ne_true this

theorem count_filter_cat (gs : List VGroup) (a : VGroup) (c : VersionCategory) :
    List.count a (gs.filter (fun g => decide (g.category = c)))
      = if a.category = c then List.count a gs else 0 := by
  by_cases h : a.category = c
  · rw [if_pos h]
    exact List.count_filter (by simp [h])
  · rw [if_neg h]
    exact count_filter_eq_zero_of_neg (by simp [h]) gs

theorem filter_partition (gs : List VGroup) :
    (gs.filter (fun g => decide (g.category = .Unreleased))
      ++ (gs.filter (fun g => decide (g.category = .Released))
      ++ (gs.filter (fun g => decide (g.category = .NoVersion))
      ++ (gs.filter (fun g => decide (g.category = .Done))
      ++ gs.filter (fun g => decide (g.category = .Discarded)))))).Perm gs := by
  rw [List.perm_iff_count]
  intro a
  simp only [List.count_append, count_filter_cat]
  cases ha : a.category <;> simp [ha]

/-! ### C1: every task lands in exactly one version group -/

theorem allTasksOf_append (l₁ l₂ : List MainGroup) :
    allTasksOf (l₁ ++ l₂) = allTasksOf l₁ ++ allTasksOf l₂ := by
  simp [allTasksOf]

theorem allTasksOf_guard (c : MainGroupCategory) (l : List VCItem) :
    allTasksOf (if 0 < l.length then [⟨c, l⟩] else [])
      = ((l.map (fun it => it.tasks)).flatten) := by
  by_cases h : 0 < l.length
  · rw [if_pos h]
    simp [allTasksOf]
  · have : l = [] := by simpa [List.length_eq_zero] using h
    rw [if_neg h, this]
    simp [allTasksOf]

theorem flatten_tasks_map_toItem (l : List VGroup) :
    (((l.map toItem).map (fun it => it.tasks)).flatten)
      = ((l.map (fun g => g.tasks)).flatten) := by
  rw [List.map_map]
  rfl

theorem flatten_tasks_sortS (le : VGroup → VGroup → Bool) (l : List VGroup) :
    ((((sortS le l).map (fun g => g.tasks)).flatten)).Perm
      ((l.map (fun g => g.tasks)).flatten) :=
  ((perm_sortS le l).map _).flatten

theorem noVersionItems_tasks (ts : List JiraTask) :
    (((noVersionItems ts).map (fun it => it.tasks)).flatten)
      = ((((groupsOf ts).filter (fun g => decide (g.category = .NoVersion))).map
          (fun g => g.tasks)).flatten) := by
  have hle := singleton_cat_filter_le_one ts .NoVersion (Or.inl rfl)
  have heq := filter_eq_find_toList
    (fun g => decide (g.category = VersionCategory.NoVersion)) (groupsOf ts) hle
  rw [heq]
  simp only [noVersionItems]
  split
  · rename_i g hf
    rw [hf]
    by_cases hg : 0 < g.tasks.length
    · rw [if_pos hg]
      simp
    · have hnil : g.tasks = [] := by simpa [List.length_eq_zero] using hg
      rw [if_neg hg]
      simp [hnil]
  · rename_i hf
    rw [hf]
    simp

theorem doneItems_tasks (ts : List JiraTask) :
    (((doneItems ts).map (fun it => it.tasks)).flatten)
      = ((((groupsOf ts).filter (fun g => decide (g.category = .Done))).map
          (fun g => g.tasks)).flatten) := by
  have hle := singleton_cat_filter_le_one ts .Done (Or.inr (Or.inl rfl))
  have heq := filter_eq_find_toList
    (fun g => decide (g.category = VersionCategory.Done)) (groupsOf ts) hle
  rw [heq]
  simp only [doneItems]
  split
  · rename_i g hf
    rw [hf]
    by_cases hg : 0 < g.tasks.length
    · rw [if_pos hg]
      simp
    · have hnil : g.tasks = [] := by simpa [List.length_eq_zero] using hg
      rw [if_neg hg]
      simp [hnil]
  · rename_i hf
    rw [hf]
    simp

theorem discardedItems_tasks (ts : List JiraTask) :
    (((discardedItems ts).map (fun it => it.tasks)).flatten)
      = ((((groupsOf ts).filter (fun g => decide (g.category = .Discarded))).map
          (fun g => g.tasks)).flatten) := by
  have hle := singleton_cat_filter_le_one ts .Discarded (Or.inr (Or.inr rfl))
  have heq := filter_eq_find_toList
    (fun g => decide (g.category = VersionCategory.Discarded)) (groupsOf ts) hle
  rw [heq]
  simp only [discardedItems]
  split
  · rename_i g hf
    rw [hf]
    by_cases hg : 0 < g.tasks.length
    · rw [if_pos hg]
      simp
    · have hnil : g.tasks = [] := by simpa [List.length_eq_zero] using hg
      rw [if_neg hg]
      simp [hnil]
  · rename_i hf
    rw [hf]
    simp

/-- C1.  The root of `getChildren` partitions the input: flattening the
tasks of every `VersionGroup` of every `MainGroup` back into one list
yields a permutation of the input task list — no task is dropped, none
is duplicated, and each sits in exactly one group. -/
theorem categorizer_partitions_tasks (ts : List JiraTask) :
    (allTasksOf (getChildrenRoot ts)).Perm ts := by
  by_cases h0 : (ts.length == 0) = true
  · have : ts = [] := by simpa using h0
    subst this
    simp [getChildrenRoot, allTasksOf]
  · have hroot : getChildrenRoot ts =
        ((if 0 < (unreleasedItems ts).length then
          [⟨.UnreleasedVersions, unreleasedItems ts⟩] else [])
        ++ (if 0 < (releasedItemsAll ts).length then
          [⟨.ReleasedVersions, releasedItemsAll ts⟩] else []))
        ++ (if 0 < (ddItems ts).length then
          [⟨.DoneAndDiscarded, ddItems ts⟩] else []) := by
      simp only [getChildrenRoot]
      rw [if_neg h0]
    rw [hroot, allTasksOf_append, allTasksOf_append,
      allTasksOf_guard, allTasksOf_guard, allTasksOf_guard]
    rw [releasedItemsAll, ddItems, List.map_append, List.flatten_append,
      List.map_append, List.flatten_append]
    rw [noVersionItems_tasks, doneItems_tasks, discardedItems_tasks]
    rw [unreleasedItems, releasedItemsSorted, flatten_tasks_map_toItem,
      flatten_tasks_map_toItem]
    simp only [List.append_assoc]
    refine List.Perm.trans
      (List.Perm.append (flatten_tasks_sortS _ _)
        (List.Perm.append (flatten_tasks_sortS _ _) (List.Perm.refl _))) ?_
    have hpart := ((filter_partition (groupsOf ts)).map (fun g => g.tasks)).flatten
    simp only [List.map_append, List.flatten_append, List.append_assoc] at hpart
    have hshape : ((((groupsOf ts).map (fun g => g.tasks)).flatten)).Perm ts := by
      have hmm : (groupsOf ts).map (fun g => g.tasks)
          = (categorizeAll ts).map (fun e => e.2.tasks) := by
        rw [groupsOf, List.map_map]
        rfl
      rw [hmm]
      exact categorizeAll_tasks_perm ts
    exact hpart.trans hshape

/-! ### Comparator lemmas under well-formed dates -/

theorem itemTime_toItem (g : VGroup) : itemTime (toItem g) = vgTime g := rfl

theorem version_toItem (g : VGroup) : (toItem g).version = g.versionName := rfl

theorem vgHasDate_eq_isSome (g : VGroup) (hg : goodGroup g = true) :
    vgHasDate g = (vgTime g).isSome := by
  rcases hd : g.releaseDate with _ | d
  · simp [vgHasDate, vgTime, truthyStr, hd]
  · have hg' : (d.data.isEmpty || (dateTime d).isSome) = true := by
      simpa [goodGroup, goodDateStr, hd] using hg
    by_cases he : d.data.isEmpty = true
    · simp [vgHasDate, vgTime, truthyStr, hd, he]
    · have he' : d.data.isEmpty = false := by simpa using he
      have hsome : (dateTime d).isSome = true := by simpa [he'] using hg'
      simp [vgHasDate, vgTime, truthyStr, hd, he', hsome]

theorem categorizeTask_releaseDate_good (t : JiraTask) (h : goodTask t = true) :
    goodDateStr (categorizeTask t).releaseDate = true := by
  unfold goodTask at h
  unfold categorizeTask
  by_cases hd : statusIsDone t.status = true
  · simp [hd, goodDateStr]
  · have hd' : statusIsDone t.status = false := by simpa using hd
    by_cases hdis : statusIsDiscarded t.status = true
    · simp [hd', hdis, goodDateStr]
    · have hdis' : statusIsDiscarded t.status = false := by simpa using hdis
      rcases hfv : t.fixVersions with _ | vs
      · simp [hd', hdis', goodDateStr]
      · rcases vs with _ | ⟨v, vs⟩
        · simp [hd', hdis', goodDateStr]
        · rw [hfv] at h
          have hv : goodDateStr v.releaseDate = true := by
            have := List.all_eq_true.1 h v (List.mem_cons_self v vs)
            simpa using this
          by_cases hr : v.released = true <;> simp [hd', hdis', hr, hv]

theorem groupsOf_good (ts : List JiraTask) (h : ts.all goodTask = true) :
    ∀ g ∈ groupsOf ts, goodGroup g = true := by
  intro g hg
  obtain ⟨e, he, rfl⟩ := List.mem_map.1 hg
  obtain ⟨t, ht, hd⟩ := categorizeAll_data ts e he
  simp only [entryData, Prod.mk.injEq] at hd
  obtain ⟨-, -, -, h4⟩ := hd
  unfold goodGroup
  rw [h4]
  exact categorizeTask_releaseDate_good t (List.all_eq_true.1 h t ht)

theorem unreleasedCmp_ss (a b : VGroup) (ha : goodGroup a = true) (hb : goodGroup b = true)
    (ta tb : Int) (hta : vgTime a = some ta) (htb : vgTime b = some tb) :
    unreleasedCmp a b = ta - tb := by
  have hda := vgHasDate_eq_isSome a ha
  have hdb := vgHasDate_eq_isSome b hb
  rw [hta] at hda
  rw [htb] at hdb
  simp [unreleasedCmp, hda, hdb, hta, htb]

theorem unreleasedCmp_sn (a b : VGroup) (ha : goodGroup a = true) (hb : goodGroup b = true)
    (ta : Int) (hta : vgTime a = some ta) (htb : vgTime b = none) :
    unreleasedCmp a b = -1 := by
  have hda := vgHasDate_eq_isSome a ha
  have hdb := vgHasDate_eq_isSome b hb
  rw [hta] at hda
  rw [htb] at hdb
  simp [unreleasedCmp, hda, hdb, hta, htb]

theorem unreleasedCmp_ns (a b : VGroup) (ha : goodGroup a = true) (hb : goodGroup b = true)
    (tb : Int) (hta : vgTime a = none) (htb : vgTime b = some tb) :
    unreleasedCmp a b = 1 := by
  have hda := vgHasDate_eq_isSome a ha
  have hdb := vgHasDate_eq_isSome b hb
  rw [hta] at hda
  rw [htb] at hdb
  simp [unreleasedCmp, hda, hdb, hta, htb]

theorem unreleasedCmp_nn (a b : VGroup) (ha : goodGroup a = true) (hb : goodGroup b = true)
    (hta : vgTime a = none) (htb : vgTime b = none) :
    unreleasedCmp a b = strCmpInt (a.versionName.getD "") (b.versionName.getD "") := by
  have hda := vgHasDate_eq_isSome a ha
  have hdb := vgHasDate_eq_isSome b hb
  rw [hta] at hda
  rw [htb] at hdb
  simp [unreleasedCmp, hda, hdb, hta, htb]

theorem releasedCmp_ss (a b : VGroup) (ha : goodGroup a = true) (hb : goodGroup b = true)
    (ta tb : Int) (hta : vgTime a = some ta) (htb : vgTime b = some tb) :
    releasedCmp a b = tb - ta := by
  have hda := vgHasDate_eq_isSome a ha
  have hdb := vgHasDate_eq_isSome b hb
  rw [hta] at hda
  rw [htb] at hdb
  simp [releasedCmp, hda, hdb, hta, htb]

theorem releasedCmp_sn (a b : VGroup) (ha : goodGroup a = true) (hb : goodGroup b = true)
    (ta : Int) (hta : vgTime a = some ta) (htb : vgTime b = none) :
    releasedCmp a b = -1 := by
  have hda := vgHasDate_eq_isSome a ha
  have hdb := vgHasDate_eq_isSome b hb
  rw [hta] at hda
  rw [htb] at hdb
  simp [releasedCmp, hda, hdb, hta, htb]

theorem releasedCmp_ns (a b : VGroup) (ha : goodGroup a = true) (hb : goodGroup b = true)
    (tb : Int) (hta : vgTime a = none) (htb : vgTime b = some tb) :
    releasedCmp a b = 1 := by
  have hda := vgHasDate_eq_isSome a ha
  have hdb := vgHasDate_eq_isSome b hb
  rw [hta] at hda
  rw [htb] at hdb
  simp [releasedCmp, hda, hdb, hta, htb]

theorem releasedCmp_nn (a b : VGroup) (ha : goodGroup a = true) (hb : goodGroup b = true)
    (hta : vgTime a = none) (htb : vgTime b = none) :
    releasedCmp a b = strCmpInt (a.versionName.getD "") (b.versionName.getD "") := by
  have hda := vgHasDate_eq_isSome a ha
  have hdb := vgHasDate_eq_isSome b hb
  rw [hta] at hda
  rw [htb] at hdb
  simp [releasedCmp, hda, hdb, hta, htb]

theorem cmpLe_unreleased_trans (a b c : VGroup)
    (ha : goodGroup a = true) (hb : goodGroup b = true) (hc : goodGroup c = true)
    (h1 : cmpLe unreleasedCmp a b = true) (h2 : cmpLe unreleasedCmp b c = true) :
    cmpLe unreleasedCmp a c = true := by
  simp only [cmpLe, decide_eq_true_eq] at h1 h2 ⊢
  rcases hta : vgTime a with _ | ta <;> rcases htb : vgTime b with _ | tb <;>
    rcases htc : vgTime c with _ | tc
  · rw [unreleasedCmp_nn a b ha hb hta htb] at h1
    rw [unreleasedCmp_nn b c hb hc htb htc] at h2
    rw [unreleasedCmp_nn a c ha hc hta htc]
    exact strCmpInt_le_trans _ _ _ h1 h2
  · rw [unreleasedCmp_ns b c hb hc tc htb htc] at h2
    omega
  · rw [unreleasedCmp_ns a b ha hb tb hta htb] at h1
    omega
  · rw [unreleasedCmp_ns a b ha hb tb hta htb] at h1
    omega
  · rw [unreleasedCmp_sn a c ha hc ta hta htc]
    omega
  · rw [unreleasedCmp_ns b c hb hc tc htb htc] at h2
    omega
  · rw [unreleasedCmp_sn a c ha hc ta hta htc]
    omega
  · rw [unreleasedCmp_ss a b ha hb ta tb hta htb] at h1
    rw [unreleasedCmp_ss b c hb hc tb tc htb htc] at h2
    rw [unreleasedCmp_ss a c ha hc ta tc hta htc]
    omega

theorem cmpLe_unreleased_total (a b : VGroup)
    (ha : goodGroup a = true) (hb : goodGroup b = true) :
    cmpLe unreleasedCmp a b = true ∨ cmpLe unreleasedCmp b a = true := by
  simp only [cmpLe, decide_eq_true_eq]
  rcases hta : vgTime a with _ | ta <;> rcases htb : vgTime b with _ | tb
  · rw [unreleasedCmp_nn a b ha hb hta htb, unreleasedCmp_nn b a hb ha htb hta]
    exact strCmpInt_le_total _ _
  · rw [unreleasedCmp_sn b a hb ha tb htb hta]
    right
    omega
  · rw [unreleasedCmp_sn a b ha hb ta hta htb]
    left
    omega
  · rw [unreleasedCmp_ss a b ha hb ta tb hta htb, unreleasedCmp_ss b a hb ha tb ta htb hta]
    omega

theorem cmpLe_released_trans (a b c : VGroup)
    (ha : goodGroup a = true) (hb : goodGroup b = true) (hc : goodGroup c = true)
    (h1 : cmpLe releasedCmp a b = true) (h2 : cmpLe releasedCmp b c = true) :
    cmpLe releasedCmp a c = true := by
  simp only [cmpLe, decide_eq_true_eq] at h1 h2 ⊢
  rcases hta : vgTime a with _ | ta <;> rcases htb : vgTime b with _ | tb <;>
    rcases htc : vgTime c with _ | tc
  · rw [releasedCmp_nn a b ha hb hta htb] at h1
    rw [releasedCmp_nn b c hb hc htb htc] at h2
    rw [releasedCmp_nn a c ha hc hta htc]
    exact strCmpInt_le_trans _ _ _ h1 h2
  · rw [releasedCmp_ns b c hb hc tc htb htc] at h2
    omega
  · rw [releasedCmp_ns a b ha hb tb hta htb] at h1
    omega
  · rw [releasedCmp_ns a b ha hb tb hta htb] at h1
    omega
  · rw [releasedCmp_sn a c ha hc ta hta htc]
    omega
  · rw [releasedCmp_ns b c hb hc tc htb htc] at h2
    omega
  · rw [releasedCmp_sn a c ha hc ta hta htc]
    omega
  · rw [releasedCmp_ss a b ha hb ta tb hta htb] at h1
    rw [releasedCmp_ss b c hb hc tb tc htb htc] at h2
    rw [releasedCmp_ss a c ha hc ta tc hta htc]
    omega

theorem cmpLe_released_total (a b : VGroup)
    (ha : goodGroup a = true) (hb : goodGroup b = true) :
    cmpLe releasedCmp a b = true ∨ cmpLe releasedCmp b a = true := by
  simp only [cmpLe, decide_eq_true_eq]
  rcases hta : vgTime a with _ | ta <;> rcases htb : vgTime b with _ | tb
  · rw [releasedCmp_nn a b ha hb hta htb, releasedCmp_nn b a hb ha htb hta]
    exact strCmpInt_le_total _ _
  · rw [releasedCmp_sn b a hb ha tb htb hta]
    right
    omega
  · rw [releasedCmp_sn a b ha hb ta hta htb]
    left
    omega
  · rw [releasedCmp_ss a b ha hb ta tb hta htb, releasedCmp_ss b a hb ha tb ta htb hta]
    omega

theorem cmpLe_unreleased_to_order (a b : VGroup)
    (ha : goodGroup a = true) (hb : goodGroup b = true)
    (h : cmpLe unreleasedCmp a b = true) :
    unrelOrderB (toItem a) (toItem b) = true := by
  simp only [cmpLe, decide_eq_true_eq] at h
  simp only [unrelOrderB, itemTime_toItem, version_toItem]
  rcases hta : vgTime a with _ | ta <;> rcases htb : vgTime b with _ | tb <;>
    simp only [hta, htb]
  · rw [unreleasedCmp_nn a b ha hb hta htb] at h
    rw [decide_eq_true_eq]
    exact h
  · rw [unreleasedCmp_ns a b ha hb tb hta htb] at h
    omega
  · rw [unreleasedCmp_ss a b ha hb ta tb hta htb] at h
    rw [decide_eq_true_eq]
    omega

theorem cmpLe_released_to_order (a b : VGroup)
    (ha : goodGroup a = true) (hb : goodGroup b = true)
    (h : cmpLe releasedCmp a b = true) :
    relOrderB (toItem a) (toItem b) = true := by
  simp only [cmpLe, decide_eq_true_eq] at h
  simp only [relOrderB, itemTime_toItem, version_toItem]
  rcases hta : vgTime a with _ | ta <;> rcases htb : vgTime b with _ | tb <;>
    simp only [hta, htb]
  · rw [releasedCmp_nn a b ha hb hta htb] at h
    rw [decide_eq_true_eq]
    exact h
  · rw [releasedCmp_ns a b ha hb tb hta htb] at h
    omega
  · rw [releasedCmp_ss a b ha hb ta tb hta htb] at h
    rw [decide_eq_true_eq]
    omega

theorem unreleasedItems_pairwise (ts : List JiraTask) (h : ts.all goodTask = true) :
    (unreleasedItems ts).Pairwise (fun a b => unrelOrderB a b = true) := by
  have hgood : ∀ g ∈ (groupsOf ts).filter (fun g => decide (g.category = .Unreleased)),
      goodGroup g = true :=
    fun g hg => groupsOf_good ts h g (List.mem_of_mem_filter hg)
  have hsorted := pairwise_sortS (cmpLe unreleasedCmp) (fun g => goodGroup g = true)
    (fun a b c ha hb hc => cmpLe_unreleased_trans a b c ha hb hc)
    (fun a b ha hb => cmpLe_unreleased_total a b ha hb)
    ((groupsOf ts).filter (fun g => decide (g.category = .Unreleased))) hgood
  rw [unreleasedItems, List.pairwise_map]
  refine hsorted.imp_of_mem ?_
  intro a b hma hmb hle
  exact cmpLe_unreleased_to_order a b
    (hgood a ((mem_sortS _ _ a).1 hma)) (hgood b ((mem_sortS _ _ b).1 hmb)) hle

theorem releasedItemsSorted_pairwise (ts : List JiraTask) (h : ts.all goodTask = true) :
    (releasedItemsSorted ts).Pairwise (fun a b => relOrderB a b = true) := by
  have hgood : ∀ g ∈ (groupsOf ts).filter (fun g => decide (g.category = .Released)),
      goodGroup g = true :=
    fun g hg => groupsOf_good ts h g (List.mem_of_mem_filter hg)
  have hsorted := pairwise_sortS (cmpLe releasedCmp) (fun g => goodGroup g = true)
    (fun a b c ha hb hc => cmpLe_released_trans a b c ha hb hc)
    (fun a b ha hb => cmpLe_released_total a b ha hb)
    ((groupsOf ts).filter (fun g => decide (g.category = .Released))) hgood
  rw [releasedItemsSorted, List.pairwise_map]
  refine hsorted.imp_of_mem ?_
  intro a b hma hmb hle
  exact cmpLe_released_to_order a b
    (hgood a ((mem_sortS _ _ a).1 hma)) (hgood b ((mem_sortS _ _ b).1 hmb)) hle

/-! ### Membership in the root output -/

theorem mem_getChildrenRoot (ts : List JiraTask) (mg : MainGroup)
    (h : mg ∈ getChildrenRoot ts) :
    (mg.category = .UnreleasedVersions ∧ mg.items = unreleasedItems ts ∧ mg.items ≠ [])
  ∨ (mg.category = .ReleasedVersions ∧ mg.items = releasedItemsAll ts ∧ mg.items ≠ [])
  ∨ (mg.category = .DoneAndDiscarded ∧ mg.items = ddItems ts ∧ mg.items ≠ []) := by
  simp only [getChildrenRoot] at h
  split at h
  · simp at h
  · rcases List.mem_append.1 h with h' | h'
    · rcases List.mem_append.1 h' with h'' | h''
      · split at h''
        · rename_i hlen
          simp only [List.mem_singleton] at h''
          subst h''
          exact Or.inl ⟨rfl, rfl, List.length_pos.1 hlen⟩
        · simp at h''
      · split at h''
        · rename_i hlen
          simp only [List.mem_singleton] at h''
          subst h''
          exact Or.inr (Or.inl ⟨rfl, rfl, List.length_pos.1 hlen⟩)
        · simp at h''
    · split at h'
      · rename_i hlen
        simp only [List.mem_singleton] at h'
        subst h'
        exact Or.inr (Or.inr ⟨rfl, rfl, List.length_pos.1 hlen⟩)
      · simp at h'

/-- C6.  Under well-formed release dates, the Unreleased-Versions main
group lists its version groups ascending by release date, dated groups
before undated ones, and undated ties alphabetically ascending by
version name. -/
theorem unreleased_groups_ordering (ts : List JiraTask) (h : ts.all goodTask = true) :
    ∀ mg ∈ getChildrenRoot ts, mg.category = .UnreleasedVersions →
      mg.items.Pairwise (fun a b => unrelOrderB a b = true) := by
  intro mg hmg hcat
  rcases mem_getChildrenRoot ts mg hmg with ⟨-, hitems, -⟩ | ⟨hc, -, -⟩ | ⟨hc, -, -⟩
  · rw [hitems]
    exact unreleasedItems_pairwise ts h
  · rw [hcat] at hc
    simp at hc
  · rw [hcat] at hc
    simp at hc

/-- Witness for C6 at the spec's example: unreleased versions dated
2024-01-01 and 2024-06-01 come out ordered (earlier first). -/
theorem unreleased_groups_ordering_witness :
    (MainGroup.mk .UnreleasedVersions
        (unreleasedItems [exTaskUnrJun, exTaskUnrJan])).items.Pairwise
      (fun a b => unrelOrderB a b = true) :=
  unreleased_groups_ordering [exTaskUnrJun, exTaskUnrJan] (by decide)
    ⟨.UnreleasedVersions, unreleasedItems [exTaskUnrJun, exTaskUnrJan]⟩ (by decide) rfl

/-- C4 (amended).  Under well-formed release dates, the released
version groups (the Released-Versions main group minus the appended
No-Version group) are ordered descending by release date, dated before
undated, and undated ties alphabetically **ascending** by version name
— the same tie-break direction as the unreleased sort, not the
reversed one the specification claims. -/
theorem released_groups_ordering (ts : List JiraTask) (h : ts.all goodTask = true) :
    ∀ mg ∈ getChildrenRoot ts, mg.category = .ReleasedVersions →
      (mg.items.filter (fun it => decide (it.category = .Released))).Pairwise
        (fun a b => relOrderB a b = true) := by
  intro mg hmg hcat
  rcases mem_getChildrenRoot ts mg hmg with ⟨hc, -, -⟩ | ⟨-, hitems, -⟩ | ⟨hc, -, -⟩
  · rw [hcat] at hc
    simp at hc
  · rw [hitems, releasedItemsAll, List.filter_append]
    have h1 : (releasedItemsSorted ts).filter (fun it => decide (it.category = .Released))
        = releasedItemsSorted ts := by
      rw [List.filter_eq_self]
      intro it hit
      rw [releasedItemsSorted] at hit
      obtain ⟨g, hg, rfl⟩ := List.mem_map.1 hit
      have hgm : g ∈ (groupsOf ts).filter
          (fun g => decide (g.category = VersionCategory.Released)) :=
        (mem_sortS _ _ g).1 hg
      have hpd := List.of_mem_filter hgm
      simp only [decide_eq_true_eq] at hpd
      simp [toItem, hpd]
    have h2 : (noVersionItems ts).filter (fun it => decide (it.category = .Released)) = [] := by
      simp only [noVersionItems]
      split
      · rename_i g hf
        by_cases hg : 0 < g.tasks.length
        · rw [if_pos hg]
          simp
        · rw [if_neg hg]
          rfl
      · rfl
    rw [h1, h2, List.append_nil]
    exact releasedItemsSorted_pairwise ts h
  · rw [hcat] at hc
    simp at hc

/-- Witness for C4's amended ordering at the spec's example: released
versions dated 2024-01-01 and 2024-06-01 come out ordered (later
first). -/
theorem released_groups_ordering_witness :
    ((MainGroup.mk .ReleasedVersions
        (releasedItemsAll [exTaskRelJan, exTaskRelJun])).items.filter
          (fun it => decide (it.category = .Released))).Pairwise
      (fun a b => relOrderB a b = true) :=
  released_groups_ordering [exTaskRelJan, exTaskRelJun] (by decide)
    ⟨.ReleasedVersions, releasedItemsAll [exTaskRelJan, exTaskRelJun]⟩ (by decide) rfl

/-- C4 counterexample.  Two released versions named "B" and "A", both
without a release date, fetched in that order: the output lists them
ascending ("A" before "B"), so the claimed alphabetically-descending
tie-break is violated on this concrete input. -/
theorem released_tie_counterexample :
    ((getChildrenRoot [exTaskRelB, exTaskRelA]).map
        (fun mg => mg.items.map (fun it => it.version)))
      = [[some "A", some "B"]]
  ∧ ¬ (((getChildrenRoot [exTaskRelB, exTaskRelA]).flatMap (fun mg => mg.items)).filter
        (fun it => decide (it.category = .Released))).Pairwise
      (fun a b => relOrderDescB a b = true) := by
  constructor
  · decide
  · intro hp
    have hlist : (((getChildrenRoot [exTaskRelB, exTaskRelA]).flatMap
        (fun mg => mg.items)).filter (fun it => decide (it.category = .Released)))
        = [⟨.Released, [exTaskRelA], some "A", none⟩,
           ⟨.Released, [exTaskRelB], some "B", none⟩] := by decide
    rw [hlist] at hp
    have := (List.pairwise_cons.1 hp).1 _ (List.mem_singleton.2 rfl)
    revert this
    decide

/-! ### C7 helper lemmas -/

theorem invKey_addToGroups (k : String) (r : CatResult) (t : JiraTask)
    (m : List (String × VGroup))
    (hm : ∀ e ∈ m, e.1 = versionKey e.2.category e.2.versionName)
    (hk : k = versionKey r.category r.versionName) :
    ∀ e ∈ addToGroups k r t m, e.1 = versionKey e.2.category e.2.versionName := by
  intro e he
  rcases mem_addToGroups_data k r t m e he with hd | ⟨e', he', hd⟩
  · simp only [entryData, Prod.mk.injEq] at hd
    obtain ⟨h1, h2, h3, -⟩ := hd
    rw [h1, h2, h3, hk]
  · simp only [entryData, Prod.mk.injEq] at hd
    obtain ⟨h1, h2, h3, -⟩ := hd
    rw [h1, h2, h3]
    exact hm e' he'

theorem mem_forward_addToGroups (k : String) (r : CatResult) (t : JiraTask) :
    ∀ (m : List (String × VGroup)), ∀ e' ∈ m,
      ∃ e ∈ addToGroups k r t m, entryData e = entryData e'
  | [], e', he' => by simp at he'
  | (k', g) :: rest, e', he' => by
    simp only [addToGroups]
    by_cases h : (k' == k) = true
    · rw [if_pos h]
      rcases List.mem_cons.1 he' with rfl | hmem
      · exact ⟨(k', { g with tasks := g.tasks ++ [t] }), List.mem_cons_self _ _, rfl⟩
      · exact ⟨e', List.mem_cons_of_mem _ hmem, rfl⟩
    · rw [if_neg h]
      rcases List.mem_cons.1 he' with rfl | hmem
      · exact ⟨(k', g), List.mem_cons_self _ _, rfl⟩
      · obtain ⟨e, he, hd⟩ := mem_forward_addToGroups k r t rest e' hmem
        exact ⟨e, List.mem_cons_of_mem _ he, hd⟩

theorem present_addToGroups (r : CatResult) (t : JiraTask) :
    ∀ (m : List (String × VGroup)),
      (∀ e ∈ m, e.1 = versionKey e.2.category e.2.versionName) →
      ∃ e ∈ addToGroups (versionKey r.category r.versionName) r t m,
        e.2.category = r.category
  | [], _ => by
    refine ⟨(versionKey r.category r.versionName,
      ⟨r.category, r.versionName, r.releaseDate, [t]⟩), ?_, rfl⟩
    simp [addToGroups]
  | (k', g) :: rest, hm => by
    simp only [addToGroups]
    by_cases hke : (k' == versionKey r.category r.versionName) = true
    · have hkeq : k' = versionKey r.category r.versionName := eq_of_beq hke
      have hinv : k' = versionKey g.category g.versionName :=
        hm (k', g) (List.mem_cons_self _ _)
      have hcat : g.category = r.category :=
        versionKey_cat_inj g.category r.category g.versionName r.versionName
          (by rw [← hinv, hkeq])
      rw [if_pos hke]
      exact ⟨(k', { g with tasks := g.tasks ++ [t] }), List.mem_cons_self _ _, hcat⟩
    · rw [if_neg hke]
      obtain ⟨e, he, hc⟩ := present_addToGroups r t rest
        (fun e2 he2 => hm e2 (List.mem_cons_of_mem _ he2))
      exact ⟨e, List.mem_cons_of_mem _ he, hc⟩

theorem exists_cat_entry (ts : List JiraTask) (c : VersionCategory)
    (hc : ∃ t ∈ ts, (categorizeTask t).category = c) :
    ∃ e ∈ categorizeAll ts, e.2.category = c := by
  have key : ∀ (ts : List JiraTask) (m : List (String × VGroup)),
      (∀ e ∈ m, e.1 = versionKey e.2.category e.2.versionName) →
      ((∃ e ∈ m, e.2.category = c) ∨ ∃ t ∈ ts, (categorizeTask t).category = c) →
      ∃ e ∈ ts.foldl (fun m t =>
        let r := categorizeTask t
        addToGroups (versionKey r.category r.versionName) r t m) m,
        e.2.category = c := by
    intro ts
    induction ts with
    | nil =>
      intro m _ hpre
      rcases hpre with hp | ⟨t, ht, _⟩
      · exact hp
      · simp at ht
    | cons t ts ih =>
      intro m hm hpre
      simp only [List.foldl_cons]
      refine ih _ (invKey_addToGroups _ _ _ m hm rfl) ?_
      rcases hpre with ⟨e, he, hcat⟩ | ⟨t', ht', hcat⟩
      · obtain ⟨e2, he2, hd⟩ := mem_forward_addToGroups _ _ t m e he
        simp only [entryData, Prod.mk.injEq] at hd
        exact Or.inl ⟨e2, he2, by rw [hd.2.1, hcat]⟩
      · rcases List.mem_cons.1 ht' with rfl | hmem
        · obtain ⟨e, he, hcat2⟩ := present_addToGroups (categorizeTask t') t' m hm
          exact Or.inl ⟨e, he, by rw [hcat2, hcat]⟩
        · exact Or.inr ⟨t', hmem, hcat⟩
  exact key ts [] (by simp) (Or.inr hc)

theorem tasks_ne_nil_addToGroups (k : String) (r : CatResult) (t : JiraTask) :
    ∀ (m : List (String × VGroup)), (∀ e ∈ m, e.2.tasks ≠ []) →
      ∀ e ∈ addToGroups k r t m, e.2.tasks ≠ []
  | [], _, e, he => by
    simp only [addToGroups, List.mem_singleton] at he
    subst he
    simp
  | (k', g) :: rest, hm, e, he => by
    simp only [addToGroups] at he
    by_cases h : (k' == k) = true
    · rw [if_pos h] at he
      rcases List.mem_cons.1 he with rfl | hmem
      · simp
      · exact hm e (List.mem_cons_of_mem _ hmem)
    · rw [if_neg h] at he
      rcases List.mem_cons.1 he with rfl | hmem
      · exact hm (k', g) (List.mem_cons_self _ _)
      · exact tasks_ne_nil_addToGroups k r t rest
          (fun e' he' => hm e' (List.mem_cons_of_mem _ he')) e hmem

theorem categorizeAll_tasks_ne_nil (ts : List JiraTask) :
    ∀ e ∈ categorizeAll ts, e.2.tasks ≠ [] := by
  have key : ∀ (ts : List JiraTask) (m : List (String × VGroup)),
      (∀ e ∈ m, e.2.tasks ≠ []) →
      ∀ e ∈ ts.foldl (fun m t =>
        let r := categorizeTask t
        addToGroups (versionKey r.category r.versionName) r t m) m,
        e.2.tasks ≠ [] := by
    intro ts
    induction ts with
    | nil => intro m hm; exact hm
    | cons t ts ih =>
      intro m hm
      simp only [List.foldl_cons]
      exact ih _ (tasks_ne_nil_addToGroups _ _ t m hm)
  exact key ts [] (by simp)

theorem doneItems_cats (ts : List JiraTask) :
    (doneItems ts).map (fun it => it.category) = []
  ∨ (doneItems ts).map (fun it => it.category) = [VersionCategory.Done] := by
  simp only [doneItems]
  split
  · rename_i g hf
    by_cases hg : 0 < g.tasks.length
    · rw [if_pos hg]
      right
      rfl
    · rw [if_neg hg]
      left
      rfl
  · left
    rfl

theorem discardedItems_cats (ts : List JiraTask) :
    (discardedItems ts).map (fun it => it.category) = []
  ∨ (discardedItems ts).map (fun it => it.category) = [VersionCategory.Discarded] := by
  simp only [discardedItems]
  split
  · rename_i g hf
    by_cases hg : 0 < g.tasks.length
    · rw [if_pos hg]
      right
      rfl
    · rw [if_neg hg]
      left
      rfl
  · left
    rfl

/-- C7.  The main groups appear in the fixed order Unreleased Versions,
Released Versions, Done-and-Discarded with empty groups omitted (every
emitted group is non-empty and the category sequence is a subsequence
of the fixed order); the Unreleased-Versions group holds only
unreleased version groups, so a No-Version group never lands there;
whenever some task categorizes as No-Version the Released-Versions
group is present and its **last** version group is the No-Version one;
and within Done-and-Discarded, Done precedes Discarded. -/
theorem main_group_assembly (ts : List JiraTask) :
    (∀ mg ∈ getChildrenRoot ts, mg.items ≠ [])
  ∧ ((getChildrenRoot ts).map (fun mg => mg.category)).Sublist
      [MainGroupCategory.UnreleasedVersions, MainGroupCategory.ReleasedVersions,
       MainGroupCategory.DoneAndDiscarded]
  ∧ (∀ mg ∈ getChildrenRoot ts, mg.category = .UnreleasedVersions →
      ∀ it ∈ mg.items, it.category = .Unreleased)
  ∧ ((∃ t ∈ ts, (categorizeTask t).category = .NoVersion) →
      ∃ mg ∈ getChildrenRoot ts, mg.category = .ReleasedVersions ∧
        (mg.items.getLast?).map (fun it => it.category) = some VersionCategory.NoVersion)
  ∧ (∀ mg ∈ getChildrenRoot ts, mg.category = .DoneAndDiscarded →
      mg.items.map (fun it => it.category)
          = [VersionCategory.Done, VersionCategory.Discarded]
      ∨ mg.items.map (fun it => it.category) = [VersionCategory.Done]
      ∨ mg.items.map (fun it => it.category) = [VersionCategory.Discarded]) := by
  refine ⟨?_, ?_, ?_, ?_, ?_⟩
  · intro mg hmg
    rcases mem_getChildrenRoot ts mg hmg with ⟨-, -, hne⟩ | ⟨-, -, hne⟩ | ⟨-, -, hne⟩ <;>
      exact hne
  · by_cases h0 : (ts.length == 0) = true
    · simp [getChildrenRoot, h0]
    · have hroot : getChildrenRoot ts =
          ((if 0 < (unreleasedItems ts).length then
            [⟨.UnreleasedVersions, unreleasedItems ts⟩] else [])
          ++ (if 0 < (releasedItemsAll ts).length then
            [⟨.ReleasedVersions, releasedItemsAll ts⟩] else []))
          ++ (if 0 < (ddItems ts).length then
            [⟨.DoneAndDiscarded, ddItems ts⟩] else []) := by
        simp only [getChildrenRoot]
        rw [if_neg h0]
      have mini : ∀ (c : MainGroupCategory) (l : List VCItem),
          ((if 0 < l.length then [MainGroup.mk c l] else []).map
            (fun mg => mg.category)).Sublist [c] := by
        intro c l
        split <;> simp
      rw [hroot, List.map_append, List.map_append]
      have := List.Sublist.append
        (List.Sublist.append (mini .UnreleasedVersions (unreleasedItems ts))
          (mini .ReleasedVersions (releasedItemsAll ts)))
        (mini .DoneAndDiscarded (ddItems ts))
      simpa using this
  · intro mg hmg hcat it hit
    rcases mem_getChildrenRoot ts mg hmg with ⟨-, hitems, -⟩ | ⟨hc, -, -⟩ | ⟨hc, -, -⟩
    · rw [hitems, unreleasedItems] at hit
      obtain ⟨g, hg, rfl⟩ := List.mem_map.1 hit
      have hgm : g ∈ (groupsOf ts).filter
          (fun g => decide (g.category = VersionCategory.Unreleased)) :=
        (mem_sortS _ _ g).1 hg
      have hpd := List.of_mem_filter hgm
      simp only [decide_eq_true_eq] at hpd
      simpa [toItem] using hpd
    · rw [hcat] at hc
      simp at hc
    · rw [hcat] at hc
      simp at hc
  · rintro ⟨t, ht, hcat⟩
    have hts : ts ≠ [] := by
      rintro rfl
      simp at ht
    have h0 : ¬ (ts.length == 0) = true := by
      intro hc
      exact hts (List.length_eq_zero.1 (by simpa using hc))
    obtain ⟨e, he, hecat⟩ := exists_cat_entry ts .NoVersion ⟨t, ht, hcat⟩
    have hgmem : e.2 ∈ groupsOf ts := List.mem_map_of_mem Prod.snd he
    have hfs : ((groupsOf ts).find?
        (fun g => decide (g.category = VersionCategory.NoVersion))).isSome = true :=
      List.find?_isSome.2 ⟨e.2, hgmem, by simp [hecat]⟩
    obtain ⟨g, hfg⟩ := Option.isSome_iff_exists.1 hfs
    have hgtasks : g.tasks ≠ [] := by
      have hmemg : g ∈ groupsOf ts := List.mem_of_find?_eq_some hfg
      obtain ⟨e2, he2, rfl⟩ := List.mem_map.1 hmemg
      exact categorizeAll_tasks_ne_nil ts e2 he2
    have hnv : noVersionItems ts = [⟨.NoVersion, g.tasks, none, none⟩] := by
      simp only [noVersionItems, hfg]
      rw [if_pos (List.length_pos.2 hgtasks)]
    have hrlen : 0 < (releasedItemsAll ts).length := by
      rw [releasedItemsAll, hnv]
      simp
    have hmem : (⟨.ReleasedVersions, releasedItemsAll ts⟩ : MainGroup)
        ∈ getChildrenRoot ts := by
      have hroot : getChildrenRoot ts =
          ((if 0 < (unreleasedItems ts).length then
            [⟨.UnreleasedVersions, unreleasedItems ts⟩] else [])
          ++ (if 0 < (releasedItemsAll ts).length then
            [⟨.ReleasedVersions, releasedItemsAll ts⟩] else []))
          ++ (if 0 < (ddItems ts).length then
            [⟨.DoneAndDiscarded, ddItems ts⟩] else []) := by
        simp only [getChildrenRoot]
        rw [if_neg h0]
      rw [hroot]
      refine List.mem_append.2 (Or.inl (List.mem_append.2 (Or.inr ?_)))
      rw [if_pos hrlen]
      simp
    refine ⟨_, hmem, rfl, ?_⟩
    show (((releasedItemsAll ts).getLast?).map (fun it => it.category)) = _
    rw [releasedItemsAll, hnv, List.getLast?_concat]
    rfl
  · intro mg hmg hcat
    rcases mem_getChildrenRoot ts mg hmg with ⟨hc, -, -⟩ | ⟨hc, -, -⟩ | ⟨-, hitems, hne⟩
    · rw [hcat] at hc
      simp at hc
    · rw [hcat] at hc
      simp at hc
    · rw [hitems, ddItems, List.map_append]
      rcases doneItems_cats ts with hD | hD <;>
        rcases discardedItems_cats ts with hDi | hDi
      · exfalso
        apply hne
        rw [hitems, ddItems]
        have h1 : doneItems ts = [] := by
          rcases hd : doneItems ts with _ | ⟨x, xs⟩
          · rfl
          · rw [hd] at hD
            simp at hD
        have h2 : discardedItems ts = [] := by
          rcases hd : discardedItems ts with _ | ⟨x, xs⟩
          · rfl
          · rw [hd] at hDi
            simp at hDi
        rw [h1, h2]
        rfl
      · rw [hD, hDi]
        right
        right
        rfl
      · rw [hD, hDi]
        right
        left
        rfl
      · rw [hD, hDi]
        left
        rfl

/-- Witness for C7 at a concrete input containing a No-Version task:
instantiates the assembly theorem and its No-Version conclusion. -/
theorem main_group_assembly_witness :
    ∃ mg ∈ getChildrenRoot [exTaskNoVer, exTaskRelA], mg.category = .ReleasedVersions ∧
      (mg.items.getLast?).map (fun it => it.category) = some VersionCategory.NoVersion :=
  (main_group_assembly [exTaskNoVer, exTaskRelA]).2.2.2.1
    ⟨exTaskNoVer, by decide, by decide⟩
